import Mathlib

/-!
# Verification of the near-duplicate vocabulary clustering core

This file is a shallow embedding, in Lean 4, of the clustering core of
`scripts/prepare_words.py` from the word-distance-game repository, together
with proofs about it.

Modelling conventions:
* a Python `str` is a `List Char` (`Word`);
* a Python vector (`list` of floats) is a `List ℚ` (`Vec`); the script's
  arithmetic on vector entries is exact in the embedding;
* `cosine_similarity` divides by the (generally irrational) product of the two
  Euclidean norms, and its result is only ever *compared against a threshold*
  (line 454 of the source), so the embedding represents that comparison as an
  equivalent rational predicate (`cosine_similarity_ge`); the lemma
  `cosine_similarity_ge_iff_real` proves the encoding equivalent to the real
  valued quotient `dot / (√‖v1‖² * √‖v2‖²) ≥ t`;
* the input `embeddings` dict is an ordered association list
  `List (Word × Vec)` (Python dicts preserve insertion order and have
  pairwise-distinct keys, which appears as a `Nodup` hypothesis where needed).
-/

namespace WordDedup

/-- A word: the sequence of characters of a Python `str`. -/
abbrev Word := List Char

/-- An embedding vector: a Python `list` of floats, modelled exactly over `ℚ`. -/
abbrev Vec := List ℚ

/-- Source, `cosine_similarity` line 114: `dot = sum(a * b for a, b in zip(v1, v2))`.
Python's `zip` truncates to the shorter of the two lists; so does this recursion.
The norms of lines 115-116 are `dotProd v v` (sum of squares, `zip` of a list
with itself never truncates). -/
def dotProd : Vec → Vec → ℚ
  | a :: v1, b :: v2 => a * b + dotProd v1 v2
  | _, _ => 0

/-- Source, `cosine_similarity` (lines 112-119) composed with the threshold
comparison `sim >= semantic_threshold` (line 454).  The Python function returns
`dot / (norm1 * norm2)` where `norm = sqrt(sum of squares)`, and returns `0`
when either norm is zero.  Because the square roots are irrational, the
embedding encodes the comparison `cosine_similarity v1 v2 ≥ t` as a rational
predicate, case-split on the signs exactly as forced by squaring; the lemma
`cosine_similarity_ge_iff_real` shows the encoding agrees with the real-valued
quotient for every threshold `t`. -/
def cosine_similarity_ge (t : ℚ) (v1 v2 : Vec) : Bool :=
  let d := dotProd v1 v2
  let s1 := dotProd v1 v1
  let s2 := dotProd v2 v2
  if s1 = 0 ∨ s2 = 0 then decide ((0 : ℚ) ≥ t)
  else if 0 ≤ d then decide (t ≤ 0) || decide (t ^ 2 * (s1 * s2) ≤ d ^ 2)
  else decide (t ≤ 0) && decide (d ^ 2 ≤ t ^ 2 * (s1 * s2))

/-- Source, lines 399-400: `padded = f"^{word}$"` and
`bigrams = {padded[j:j+2] for j in range(len(padded) - 1)}`: the *set* of
character bigrams of the padded word.  A two-character slice is modelled as a
`Char × Char` pair; the set comprehension (duplicates collapse) as a `Finset`. -/
def wordBigrams (w : Word) : Finset (Char × Char) :=
  (List.zip ('^' :: (w ++ ['$'])) (w ++ ['$'])).toFinset

/-- Source, inner loop of `edit_distance` (lines 102-107): given the previous
DP row, the current character `c1` of `s1`, the remaining characters of `s2`
and the last entry `last` appended to the current row, produce the rest of the
current row.  At each step `p0 = prev_row[j]`, `p1 = prev_row[j+1]`,
`last = curr_row[j]`, and the appended entry is
`min(insertions, deletions, substitutions)`. -/
def edNextRow (c1 : Char) : Word → List ℕ → ℕ → List ℕ
  | c2 :: s2, p0 :: p1 :: prev, last =>
      min (p1 + 1) (min (last + 1) (p0 + (if c1 = c2 then 0 else 1))) ::
        edNextRow c1 s2 (p1 :: prev)
          (min (p1 + 1) (min (last + 1) (p0 + (if c1 = c2 then 0 else 1))))
  | _, _, _ => []

/-- Source, outer loop of `edit_distance` (lines 101-108):
`for i, c1 in enumerate(s1)`, each iteration replacing `prev_row` by
`curr_row = [i + 1] ++ ...`. -/
def edRows : Word → Word → ℕ → List ℕ → List ℕ
  | [], _, _, prev => prev
  | c1 :: s1, s2, i, prev => edRows s1 s2 (i + 1) ((i + 1) :: edNextRow c1 s2 prev (i + 1))

/-- Source: `edit_distance` (lines 93-109).  The Python function starts with
`if len(s1) < len(s2): return edit_distance(s2, s1)`; that single argument-swap
recursion is unfolded once here (after the swap the guard is false, so the
swapped call goes straight to the base case or the DP).  `prev_row` is
initialised to `range(len(s2) + 1)` and the result is `prev_row[-1]`. -/
def edit_distance (s1 s2 : Word) : ℕ :=
  if s1.length < s2.length then
    if s1.length = 0 then s2.length
    else (edRows s2 s1 0 (List.range (s1.length + 1))).getLastD 0
  else
    if s2.length = 0 then s1.length
    else (edRows s1 s2 0 (List.range (s2.length + 1))).getLastD 0

/-- Specification (not from the source): a single-character edit operation, the
unit of the Levenshtein distance: substituting, inserting or deleting one
character at an arbitrary position. -/
inductive OneEdit : Word → Word → Prop
  | subst (A B : Word) (c d : Char) : c ≠ d → OneEdit (A ++ c :: B) (A ++ d :: B)
  | insert (A B : Word) (d : Char) : OneEdit (A ++ B) (A ++ d :: B)
  | delete (A B : Word) (c : Char) : OneEdit (A ++ c :: B) (A ++ B)

/-- Specification (not from the source): `EditChain k s t` holds when some
sequence of exactly `k` single-character edit operations transforms `s`
into `t`.  The Levenshtein distance of `s` and `t` is the least such `k`. -/
inductive EditChain : ℕ → Word → Word → Prop
  | refl (s : Word) : EditChain 0 s s
  | step {s t u : Word} {k : ℕ} : OneEdit s t → EditChain k t u → EditChain (k + 1) s u

/-- Reference Levenshtein recurrence (textbook first-character form), used as a
stepping stone between the rolling-row DP of the source and the edit-chain
specification: `lev` is proved to be the least length of an `EditChain`
(`lev_isLeast`) and `edit_distance` is proved equal to `lev`
(`edit_distance_eq_lev`). -/
def lev : Word → Word → ℕ
  | [], s2 => s2.length
  | _ :: s1, [] => s1.length + 1
  | c1 :: s1, c2 :: s2 =>
      min (lev s1 (c2 :: s2) + 1)
        (min (lev (c1 :: s1) s2 + 1) (lev s1 s2 + (if c1 = c2 then 0 else 1)))
termination_by s1 s2 => (s1.length, s2.length)

/-- One parent-pointer lookup `parent[x]`.  Reads outside the array (which
never occur for ids below `n`, the only ones the pass uses) return `x`. -/
def parentStep (p : List ℕ) (x : ℕ) : ℕ := p.getD x x

/-- Source, `find` (lines 382-385).  Python's `find` follows parent pointers
until it reaches a root; it terminates because the parent array stays an
acyclic forest, which the embedding makes explicit with a fuel argument
(`p.length` steps always suffice on an acyclic forest, see `findAux_eq_of_fix`
and `exists_fix_lt`).  The source's path compression `parent[x] = find(parent[x])`
re-points a node at its own root; it never changes the root any node resolves
to, so the embedding omits the write and keeps only the traversal. -/
def findAux (p : List ℕ) : ℕ → ℕ → ℕ
  | 0, x => x
  | fuel + 1, x => if parentStep p x = x then x else findAux p fuel (parentStep p x)

/-- Source, `find` (lines 382-385): the root of `x` in the parent forest. -/
def find (p : List ℕ) (x : ℕ) : ℕ := findAux p p.length x

/-- Source, `union` (lines 387-390): `px, py = find(x), find(y);
if px != py: parent[px] = py`. -/
def union (p : List ℕ) (x y : ℕ) : List ℕ :=
  if find p x ≠ find p y then p.set (find p x) (find p y) else p

/-- The two thresholds of `deduplicate_by_similarity` (line 364), with the
source's default values `spelling_threshold=2` and `semantic_threshold=0.85`. -/
structure Config where
  spelling_threshold : ℕ := 2
  semantic_threshold : ℚ := 85 / 100

/-- Source, line 375: `words = list(embeddings.keys())`. -/
def words (E : List (Word × Vec)) : List Word := E.map Prod.fst

/-- Source, line 376: `vectors = [embeddings[w] for w in words]` (for a dict,
the values in key order). -/
def vectors (E : List (Word × Vec)) : List Vec := E.map Prod.snd

/-- The word at id `i`; ids are input positions (line 397). -/
def wordAt (E : List (Word × Vec)) (i : ℕ) : Word := (words E).getD i []

/-- The vector at id `i`. -/
def vecAt (E : List (Word × Vec)) (i : ℕ) : Vec := (vectors E).getD i []

/-- Id `j` shares at least one padded bigram with id `i` — exactly the
condition for `j` to appear in the union over `bg ∈ bigrams_of[i]` of the
inverted-index postings `bigram_index[bg]` built in lines 394-403. -/
def sharesBigram (E : List (Word × Vec)) (i j : ℕ) : Bool :=
  decide ((wordBigrams (wordAt E i) ∩ wordBigrams (wordAt E j)).Nonempty)

/-- Source, lines 418-420: `candidates = set(); for bg in bg1:
candidates.update(bigram_index[bg])`.  Unioning the postings of id `i`'s
bigrams yields precisely the ids whose word shares at least one bigram with
word `i`.  The embedding enumerates this set in ascending id order; the
Python `set` iteration order is unspecified, and no emitted result of the
pass depends on it (the merge decision for a pair never reads `parent`, and
the extracted groups depend only on the final connectivity). -/
def candidates (E : List (Word × Vec)) (i : ℕ) : List ℕ :=
  (List.range E.length).filter (fun j => sharesBigram E i j)

/-- Source, lines 434-443: the two cheap pre-filters applied to a candidate
pair before the exact tests: the length filter
(`abs(len1 - len(word2)) > spelling_threshold` skips, line 435) and the
bigram-overlap filter (`overlap < max(1, min(len(bg1), len(bg2)) -
spelling_threshold - 1)` skips, lines 439-442; integer arithmetic as in
Python, hence the cast to `ℤ`). -/
def passesPrefilters (C : Config) (w1 w2 : Word) : Bool :=
  decide (((w1.length : ℤ) - (w2.length : ℤ)).natAbs ≤ C.spelling_threshold) &&
  decide (max 1 ((min (wordBigrams w1).card (wordBigrams w2).card : ℤ)
      - (C.spelling_threshold : ℤ) - 1) ≤ ((wordBigrams w1 ∩ wordBigrams w2).card : ℤ))

/-- Source, lines 447-454: the similarity test proper — exact edit distance
against `spelling_threshold`, then cosine similarity against
`semantic_threshold`; `union(i, j)` is called iff both pass. -/
def passesSimilarity (C : Config) (w1 w2 : Word) (v1 v2 : Vec) : Bool :=
  decide (edit_distance w1 w2 ≤ C.spelling_threshold) &&
  cosine_similarity_ge C.semantic_threshold v1 v2

/-- The pair `(i, j)` reaches the similarity test of lines 447-454: `j` is in
`i`'s candidate set, `i < j` (line 423 skips `j ≤ i`; the `seen_pairs` set of
lines 427-430 rejects nothing beyond that, since an unordered pair is reachable
only in the outer iteration of its smaller id and only once there, the
candidate set being a set), and both cheap pre-filters pass. -/
def reachesSimilarityTest (C : Config) (E : List (Word × Vec)) (i j : ℕ) : Bool :=
  decide (i < j) && decide (j < E.length) && sharesBigram E i j &&
    passesPrefilters C (wordAt E i) (wordAt E j)

/-- The list of pairs on which `union` is called (line 455): the pairs that
reach the similarity test and pass it, enumerated in the embedding's fixed
order (ascending `i`, then ascending `j`). -/
def mergedPairs (C : Config) (E : List (Word × Vec)) : List (ℕ × ℕ) :=
  (List.range E.length).flatMap (fun i =>
    ((candidates E i).filter (fun j =>
        decide (i < j) && passesPrefilters C (wordAt E i) (wordAt E j) &&
        passesSimilarity C (wordAt E i) (wordAt E j) (vecAt E i) (vecAt E j))).map
      (fun j => (i, j)))

/-- Source, lines 380 and 410-456: `parent = list(range(n))` followed by one
`union(i, j)` per merged pair.  The merge decision for a pair never reads
`parent`, so folding the unions over the finished pair list is equivalent to
interleaving them with the candidate scan as the source does. -/
def parentFinal (C : Config) (E : List (Word × Vec)) : List ℕ :=
  (mergedPairs C E).foldl (fun p ij => union p ij.1 ij.2) (List.range E.length)

/-- Helper for `groupsList`: keep the first occurrence of each element,
dropping later duplicates (Python dict keys appear in insertion order). -/
def firstDedupAux (seen : List ℕ) : List ℕ → List ℕ
  | [] => []
  | x :: xs => if x ∈ seen then firstDedupAux seen xs else x :: firstDedupAux (x :: seen) xs

/-- The distinct elements of `l` in order of first appearance. -/
def firstDedup (l : List ℕ) : List ℕ := firstDedupAux [] l

/-- Source, lines 461-464: `groups = defaultdict(list);
for i in range(n): groups[find(i)].append(i)`.  The keys of the defaultdict
are the distinct roots in order of first appearance; the value at a root is
the ascending list of the ids that resolve to it. -/
def groupsList (C : Config) (E : List (Word × Vec)) : List (ℕ × List ℕ) :=
  (firstDedup ((List.range E.length).map (find (parentFinal C E)))).map
    (fun r => (r, (List.range E.length).filter (fun i => find (parentFinal C E) i = r)))

/-- Python string comparison (by code points), as needed by the sort key of
line 472: `lexLt w1 w2` iff `w1 < w2` as Python strings. -/
def lexLt : Word → Word → Bool
  | [], [] => false
  | [], _ :: _ => true
  | _ :: _, [] => false
  | a :: as, b :: bs => decide (a < b) || (decide (a = b) && lexLt as bs)

/-- Source, line 472: the Python sort key `lambda w: (len(w), w)` compared as
tuples: by length first, ties broken lexicographically. -/
def wordKeyLe (w1 w2 : Word) : Bool :=
  decide (w1.length < w2.length) || (decide (w1.length = w2.length) && !lexLt w2 w1)

/-- Python dict lookup `embeddings[canonical]` (line 474): the value at the
first (for a dict: the only) matching key. -/
def dictGet (E : List (Word × Vec)) (w : Word) : Vec :=
  ((E.find? (fun p => decide (p.1 = w))).map Prod.snd).getD []

/-- Source, lines 466-486: for each group, sort the member words by
`(len(word), word)` (line 472, a stable mergesort in Python; only the first
element is used), keep the first as `canonical` and emit
`canonical_words[canonical] = embeddings[canonical]` — the canonical member's
original vector looked up in the input dict.  The emitted association list is
the returned `canonical_words` dict in insertion order. -/
def deduplicate_by_similarity (C : Config) (E : List (Word × Vec)) : List (Word × Vec) :=
  (groupsList C E).map (fun g =>
    (((g.2.map (fun i => wordAt E i)).mergeSort wordKeyLe).headD [],
      dictGet E (((g.2.map (fun i => wordAt E i)).mergeSort wordKeyLe).headD [])))

/-! ## Levenshtein distance: the reference recurrence is the least edit-chain
length -/

theorem lev_nil_left (s2 : Word) : lev [] s2 = s2.length := by
  simp [lev]

theorem lev_nil_right (s1 : Word) : lev s1 [] = s1.length := by
  cases s1 <;> simp [lev]

theorem lev_cons_cons (c1 c2 : Char) (s1 s2 : Word) :
    lev (c1 :: s1) (c2 :: s2) =
      min (lev s1 (c2 :: s2) + 1)
        (min (lev (c1 :: s1) s2 + 1) (lev s1 s2 + (if c1 = c2 then 0 else 1))) := by
  simp [lev]

theorem lev_self (s : Word) : lev s s = 0 := by
  induction s with
  | nil => simp [lev]
  | cons c s ih => simp [lev_cons_cons, ih]

/-- Appending a chain of edits after another chain concatenates the counts. -/
theorem EditChain.trans {m n : ℕ} {s t u : Word}
    (h1 : EditChain m s t) (h2 : EditChain n t u) : EditChain (m + n) s u := by
  induction h1 with
  | refl s => simpa using h2
  | step e _ ih => rw [Nat.add_right_comm]; exact EditChain.step e (ih h2)

theorem EditChain.single {s t : Word} (e : OneEdit s t) : EditChain 1 s t :=
  EditChain.step e (EditChain.refl t)

theorem oneEdit_cons {u v : Word} (c : Char) (e : OneEdit u v) :
    OneEdit (c :: u) (c :: v) := by
  cases e with
  | subst A B a b h => exact OneEdit.subst (c :: A) B a b h
  | insert A B d => exact OneEdit.insert (c :: A) B d
  | delete A B a => exact OneEdit.delete (c :: A) B a

theorem editChain_cons {k : ℕ} {u v : Word} (c : Char) (h : EditChain k u v) :
    EditChain k (c :: u) (c :: v) := by
  induction h with
  | refl s => exact EditChain.refl _
  | step e _ ih => exact EditChain.step (oneEdit_cons c e) ih

theorem oneEdit_symm {u v : Word} (e : OneEdit u v) : OneEdit v u := by
  cases e with
  | subst A B a b h => exact OneEdit.subst A B b a (Ne.symm h)
  | insert A B d => exact OneEdit.delete A B d
  | delete A B a => exact OneEdit.insert A B a

theorem editChain_symm {k : ℕ} {s t : Word} (h : EditChain k s t) : EditChain k t s := by
  induction h with
  | refl s => exact EditChain.refl s
  | step e _ ih => exact ih.trans (EditChain.single (oneEdit_symm e))

theorem oneEdit_reverse {u v : Word} (e : OneEdit u v) : OneEdit u.reverse v.reverse := by
  cases e with
  | subst A B a b h =>
      simpa using OneEdit.subst B.reverse A.reverse a b h
  | insert A B d =>
      simpa using OneEdit.insert B.reverse A.reverse d
  | delete A B a =>
      simpa using OneEdit.delete B.reverse A.reverse a

theorem editChain_reverse {k : ℕ} {s t : Word} (h : EditChain k s t) :
    EditChain k s.reverse t.reverse := by
  induction h with
  | refl s => exact EditChain.refl _
  | step e _ ih => exact EditChain.step (oneEdit_reverse e) ih

/-- The empty word is turned into `s` by `s.length` insertions. -/
theorem editChain_nil_left (s : Word) : EditChain s.length [] s := by
  induction s with
  | nil => exact EditChain.refl []
  | cons c t ih =>
      have e : OneEdit t (c :: t) := OneEdit.insert [] t c
      simpa using ih.trans (EditChain.single e)

/-- `lev s1 s2` edits always suffice: the recurrence value is achieved by an
explicit chain. -/
theorem lev_chain : ∀ s1 s2 : Word, EditChain (lev s1 s2) s1 s2 := by
  intro s1
  induction s1 with
  | nil => intro s2; rw [lev_nil_left]; exact editChain_nil_left s2
  | cons c1 t1 ih1 =>
    intro s2
    induction s2 with
    | nil =>
        rw [lev_nil_right]
        have e : OneEdit (c1 :: t1) t1 := OneEdit.delete [] t1 c1
        have h := (EditChain.single e).trans (editChain_symm (editChain_nil_left t1))
        simpa [Nat.add_comm] using h
    | cons c2 t2 ih2 =>
        rw [lev_cons_cons]
        rcases Nat.le_total (lev t1 (c2 :: t2) + 1)
            (min (lev (c1 :: t1) t2 + 1) (lev t1 t2 + (if c1 = c2 then 0 else 1))) with h | h
        · rw [min_eq_left h]
          have e : OneEdit (c1 :: t1) t1 := OneEdit.delete [] t1 c1
          have hc := (EditChain.single e).trans (ih1 (c2 :: t2))
          simpa [Nat.add_comm] using hc
        · rw [min_eq_right h]
          rcases Nat.le_total (lev (c1 :: t1) t2 + 1)
              (lev t1 t2 + (if c1 = c2 then 0 else 1)) with h2 | h2
          · rw [min_eq_left h2]
            have e : OneEdit t2 (c2 :: t2) := OneEdit.insert [] t2 c2
            exact ih2.trans (EditChain.single e)
          · rw [min_eq_right h2]
            by_cases hc : c1 = c2
            · subst hc
              simpa using editChain_cons c1 (ih1 t2)
            · rw [if_neg hc]
              have e : OneEdit (c1 :: t1) (c2 :: t1) := OneEdit.subst [] t1 c1 c2 hc
              have hch := (EditChain.single e).trans (editChain_cons c2 (ih1 t2))
              simpa [Nat.add_comm] using hch

/-- Inserting one character in front of the second argument raises `lev` by at
most one. -/
theorem lev_le_insert_right (x : Word) (y : Char) (ys : Word) :
    lev x (y :: ys) ≤ lev x ys + 1 := by
  cases x with
  | nil => simp [lev_nil_left]
  | cons c t =>
      rw [lev_cons_cons]
      exact le_trans (min_le_right _ _) (le_trans (min_le_left _ _) (le_refl _))

/-- Deleting one character of the first argument changes `lev` by at most
one. -/
theorem lev_del_ctx (c : Char) (B : Word) :
    ∀ (A u : Word), lev (A ++ c :: B) u ≤ lev (A ++ B) u + 1 := by
  intro A
  induction A with
  | nil =>
      intro u
      cases u with
      | nil => simp [lev_nil_right]
      | cons y ys => rw [List.nil_append, List.nil_append, lev_cons_cons]; exact min_le_left _ _
  | cons a A ihA =>
      intro u
      induction u with
      | nil => simp [lev_nil_right]; omega
      | cons y ys ihu =>
          simp only [List.cons_append] at ihu ⊢
          rw [lev_cons_cons, lev_cons_cons]
          have h1 := ihA (y :: ys)
          have h3 := ihA ys
          split_ifs <;> omega

/-- Inserting one character into the first argument changes `lev` by at most
one. -/
theorem lev_ins_ctx (d : Char) (B : Word) :
    ∀ (A u : Word), lev (A ++ B) u ≤ lev (A ++ d :: B) u + 1 := by
  intro A
  induction A with
  | nil =>
      intro u
      induction u with
      | nil => simp [lev_nil_right]; omega
      | cons y ys ihu =>
          simp only [List.nil_append] at ihu ⊢
          rw [lev_cons_cons]
          have h2 := lev_le_insert_right B y ys
          split_ifs <;> omega
  | cons a A ihA =>
      intro u
      induction u with
      | nil => simp [lev_nil_right]; omega
      | cons y ys ihu =>
          simp only [List.cons_append] at ihu ⊢
          rw [lev_cons_cons, lev_cons_cons]
          have h1 := ihA (y :: ys)
          have h3 := ihA ys
          split_ifs <;> omega

/-- Substituting one character of the first argument changes `lev` by at most
one. -/
theorem lev_subst_ctx (c d : Char) (B : Word) :
    ∀ (A u : Word), lev (A ++ c :: B) u ≤ lev (A ++ d :: B) u + 1 := by
  intro A
  induction A with
  | nil =>
      intro u
      induction u with
      | nil => simp [lev_nil_right]
      | cons y ys ihu =>
          simp only [List.nil_append] at ihu ⊢
          rw [lev_cons_cons, lev_cons_cons]
          have h2 := lev_le_insert_right B y ys
          split_ifs <;> omega
  | cons a A ihA =>
      intro u
      induction u with
      | nil => simp [lev_nil_right]
      | cons y ys ihu =>
          simp only [List.cons_append] at ihu ⊢
          rw [lev_cons_cons, lev_cons_cons]
          have h1 := ihA (y :: ys)
          have h3 := ihA ys
          split_ifs <;> omega

/-- One edit on the first argument changes `lev` by at most one. -/
theorem lev_le_of_oneEdit {s t : Word} (e : OneEdit s t) (u : Word) :
    lev s u ≤ lev t u + 1 := by
  cases e with
  | subst A B a b h => exact lev_subst_ctx a b B A u
  | insert A B d => exact lev_ins_ctx d B A u
  | delete A B a => exact lev_del_ctx a B A u

/-- No chain of edits is shorter than the recurrence value. -/
theorem editChain_lower : ∀ {k : ℕ} {s t : Word}, EditChain k s t → lev s t ≤ k := by
  intro k s t h
  induction h with
  | refl s => simp [lev_self]
  | step e _ ih => exact le_trans (lev_le_of_oneEdit e _) (by omega)

/-- The recurrence `lev` computes exactly the Levenshtein distance: the least
number of single-character edits transforming `s1` into `s2`. -/
theorem lev_isLeast (s1 s2 : Word) : IsLeast {k | EditChain k s1 s2} (lev s1 s2) :=
  ⟨lev_chain s1 s2, fun _ hk => editChain_lower hk⟩

theorem lev_symm (s1 s2 : Word) : lev s1 s2 = lev s2 s1 :=
  le_antisymm (editChain_lower (editChain_symm (lev_chain s2 s1)))
    (editChain_lower (editChain_symm (lev_chain s1 s2)))

theorem lev_reverse (s1 s2 : Word) : lev s1.reverse s2.reverse = lev s1 s2 :=
  le_antisymm (editChain_lower (editChain_reverse (lev_chain s1 s2)))
    (by simpa using editChain_lower (editChain_reverse (lev_chain s1.reverse s2.reverse)))

theorem lev_eq_zero_iff (s1 s2 : Word) : lev s1 s2 = 0 ↔ s1 = s2 := by
  constructor
  · intro h
    have hc := lev_chain s1 s2
    rw [h] at hc
    cases hc
    rfl
  · intro h; rw [h, lev_self]

/-! ## The rolling-row DP of the source computes `lev` -/

/-- Levenshtein distance of the reversed words.  The source's DP extends the
processed prefixes on the right, which corresponds to `lev` on the reversed
lists; `lev_reverse` closes the gap at the end. -/
def levR (a b : Word) : ℕ := lev a.reverse b.reverse

theorem levR_nil_right (a : Word) : levR a [] = a.length := by
  simp [levR, lev_nil_right]

theorem levR_snoc_snoc (a b : Word) (c1 c2 : Char) :
    levR (a ++ [c1]) (b ++ [c2]) =
      min (levR a (b ++ [c2]) + 1)
        (min (levR (a ++ [c1]) b + 1) (levR a b + (if c1 = c2 then 0 else 1))) := by
  simp only [levR, List.reverse_append, List.reverse_cons, List.reverse_nil,
    List.nil_append, List.cons_append]
  rw [lev_cons_cons]

theorem range_map_succ {α : Type} (n : ℕ) (f : ℕ → α) :
    (List.range (n + 1)).map f = f 0 :: (List.range n).map (fun j => f (j + 1)) := by
  rw [List.range_succ_eq_map]
  simp [List.map_map, Function.comp]

/-- Invariant of the inner loop of `edit_distance`: if the incoming row holds
the distances from the processed prefix `a` to every prefix of `B ++ t`
extending `B`, and the entry just appended is the distance from `a ++ [c1]`
to `B`, then the rest of the produced row holds the distances from
`a ++ [c1]` to the strictly longer prefixes. -/
theorem edNextRow_spec (c1 : Char) :
    ∀ (t a B : Word),
      edNextRow c1 t ((List.range (t.length + 1)).map (fun j => levR a (B ++ t.take j)))
          (levR (a ++ [c1]) B)
        = (List.range t.length).map (fun j => levR (a ++ [c1]) (B ++ t.take (j + 1))) := by
  intro t
  induction t with
  | nil =>
      intro a B
      simp [edNextRow]
  | cons c2 t ih =>
      intro a B
      simp only [List.length_cons]
      rw [range_map_succ (t.length + 1), range_map_succ t.length]
      simp only [List.take_zero, List.take_succ_cons, List.append_nil]
      rw [edNextRow]
      have hcost : min (levR a (B ++ [c2]) + 1)
          (min (levR (a ++ [c1]) B + 1) (levR a B + (if c1 = c2 then 0 else 1)))
          = levR (a ++ [c1]) (B ++ [c2]) := (levR_snoc_snoc a B c1 c2).symm
      have harg : (levR a (B ++ [c2]) ::
            (List.range t.length).map (fun j => levR a (B ++ c2 :: t.take (j + 1))))
          = (List.range (t.length + 1)).map (fun j => levR a ((B ++ [c2]) ++ t.take j)) := by
        rw [range_map_succ t.length]
        simp [List.append_assoc]
      rw [hcost, harg, ih a (B ++ [c2])]
      rw [range_map_succ t.length]
      simp [List.append_assoc]

/-- Invariant of the outer loop of `edit_distance`: starting from the row of
distances from the processed prefix `a`, consuming the remaining characters
`rest` produces the row of distances from `a ++ rest`. -/
theorem edRows_spec (s2 : Word) :
    ∀ (rest a : Word),
      edRows rest s2 a.length ((List.range (s2.length + 1)).map (fun j => levR a (s2.take j)))
        = (List.range (s2.length + 1)).map (fun j => levR (a ++ rest) (s2.take j)) := by
  intro rest
  induction rest with
  | nil => intro a; simp [edRows]
  | cons c1 rest ih =>
      intro a
      rw [edRows]
      have hlen : a.length + 1 = (a ++ [c1]).length := by simp
      have hhead : a.length + 1 = levR (a ++ [c1]) (s2.take 0) := by
        simp [levR_nil_right]
      have hnext : edNextRow c1 s2
            ((List.range (s2.length + 1)).map (fun j => levR a (s2.take j))) (a.length + 1)
          = (List.range s2.length).map (fun j => levR (a ++ [c1]) (s2.take (j + 1))) := by
        have h0 : (List.range (s2.length + 1)).map (fun j => levR a (s2.take j))
            = (List.range (s2.length + 1)).map (fun j => levR a ([] ++ s2.take j)) := by
          simp
        have h1 : a.length + 1 = levR (a ++ [c1]) [] := by simp [levR_nil_right]
        rw [h0, h1, edNextRow_spec c1 s2 a []]
        simp
      have hrow : ((a.length + 1) :: edNextRow c1 s2
            ((List.range (s2.length + 1)).map (fun j => levR a (s2.take j))) (a.length + 1))
          = (List.range (s2.length + 1)).map (fun j => levR (a ++ [c1]) (s2.take j)) := by
        rw [hnext, range_map_succ s2.length, ← hhead]
      rw [hrow, hlen, ih (a ++ [c1])]
      simp

/-- The DP of `edit_distance` (initial row `range(len(s2)+1)`, final answer
`prev_row[-1]`) computes `levR s1 s2`. -/
theorem edRows_getLastD (s1 s2 : Word) :
    (edRows s1 s2 0 (List.range (s2.length + 1))).getLastD 0 = levR s1 s2 := by
  have hinit : List.range (s2.length + 1)
      = (List.range (s2.length + 1)).map (fun j => levR [] (s2.take j)) := by
    have : ∀ j ∈ List.range (s2.length + 1), levR [] (s2.take j) = j := by
      intro j hj
      rw [List.mem_range] at hj
      simp [levR, lev_nil_left, List.length_take]
      omega
    rw [List.map_congr_left this]
    simp
  have h0 : (0 : ℕ) = ([] : Word).length := rfl
  rw [hinit, h0, edRows_spec s2 s1 []]
  rw [List.range_succ, List.map_append]
  simp [List.take_length]

/-- The source's `edit_distance` equals the reference recurrence `lev`. -/
theorem edit_distance_eq_lev (s1 s2 : Word) : edit_distance s1 s2 = lev s1 s2 := by
  have hR : ∀ a b : Word, levR a b = lev a b := by
    intro a b; rw [levR, lev_reverse]
  unfold edit_distance
  by_cases h1 : s1.length < s2.length
  · rw [if_pos h1]
    by_cases h2 : s1.length = 0
    · rw [if_pos h2]
      have : s1 = [] := List.length_eq_zero.mp h2
      subst this
      rw [lev_nil_left]
    · rw [if_neg h2, edRows_getLastD s2 s1, hR, lev_symm]
  · rw [if_neg h1]
    by_cases h2 : s2.length = 0
    · rw [if_pos h2]
      have : s2 = [] := List.length_eq_zero.mp h2
      subst this
      rw [lev_nil_right]
    · rw [if_neg h2, edRows_getLastD s1 s2, hR]

/-! ## Cosine similarity: the rational encoding agrees with the real-valued
quotient of the source -/

theorem dotProd_comm : ∀ v1 v2 : Vec, dotProd v1 v2 = dotProd v2 v1 := by
  intro v1
  induction v1 with
  | nil => intro v2; cases v2 <;> simp [dotProd]
  | cons a v ih =>
      intro v2
      cases v2 with
      | nil => simp [dotProd]
      | cons b w => simp [dotProd, ih, mul_comm]

theorem dotProd_self_nonneg (v : Vec) : 0 ≤ dotProd v v := by
  induction v with
  | nil => simp [dotProd]
  | cons a v ih => have := mul_self_nonneg a; simp [dotProd]; nlinarith

theorem dotProd_self_of_zero (v : Vec) (h : ∀ x ∈ v, x = 0) : dotProd v v = 0 := by
  induction v with
  | nil => simp [dotProd]
  | cons a v ih =>
      have ha : a = 0 := h a (by simp)
      have hv : ∀ x ∈ v, x = 0 := fun x hx => h x (by simp [hx])
      simp [dotProd, ha, ih hv]

/-- The rational predicate `cosine_similarity_ge t v1 v2` is exactly the
comparison `cosine_similarity(v1, v2) >= t` of the source, where
`cosine_similarity` is the real number `dot / (norm1 * norm2)`
(nondegenerate case; the zero-norm case is definitional: the source returns
literally `0` there, and the encoding compares `0 ≥ t`). -/
theorem cosine_similarity_ge_iff_real (t : ℚ) (v1 v2 : Vec)
    (h1 : dotProd v1 v1 ≠ 0) (h2 : dotProd v2 v2 ≠ 0) :
    cosine_similarity_ge t v1 v2 = true ↔
      (t : ℝ) ≤ (dotProd v1 v2 : ℝ) /
        (Real.sqrt (dotProd v1 v1 : ℚ) * Real.sqrt (dotProd v2 v2 : ℚ)) := by
  have hs1 : (0 : ℚ) < dotProd v1 v1 := lt_of_le_of_ne (dotProd_self_nonneg v1) (Ne.symm h1)
  have hs2 : (0 : ℚ) < dotProd v2 v2 := lt_of_le_of_ne (dotProd_self_nonneg v2) (Ne.symm h2)
  have hr1 : (0 : ℝ) < Real.sqrt (dotProd v1 v1 : ℚ) :=
    Real.sqrt_pos.mpr (by exact_mod_cast hs1)
  have hr2 : (0 : ℝ) < Real.sqrt (dotProd v2 v2 : ℚ) :=
    Real.sqrt_pos.mpr (by exact_mod_cast hs2)
  have hN : (0 : ℝ) < Real.sqrt (dotProd v1 v1 : ℚ) * Real.sqrt (dotProd v2 v2 : ℚ) :=
    mul_pos hr1 hr2
  have hNsq : (Real.sqrt (dotProd v1 v1 : ℚ) * Real.sqrt (dotProd v2 v2 : ℚ)) ^ 2
      = ((dotProd v1 v1 : ℚ) : ℝ) * ((dotProd v2 v2 : ℚ) : ℝ) := by
    rw [mul_pow, Real.sq_sqrt (by exact_mod_cast hs1.le),
      Real.sq_sqrt (by exact_mod_cast hs2.le)]
  rw [le_div_iff₀ hN]
  have hor : ¬(dotProd v1 v1 = 0 ∨ dotProd v2 v2 = 0) := by
    push_neg; exact ⟨h1, h2⟩
  simp only [cosine_similarity_ge, if_neg hor, Bool.or_eq_true, Bool.and_eq_true,
    decide_eq_true_eq]
  set d : ℚ := dotProd v1 v2 with hd_def
  set N : ℝ := Real.sqrt (dotProd v1 v1 : ℚ) * Real.sqrt (dotProd v2 v2 : ℚ) with hN_def
  by_cases hd : 0 ≤ d
  · rw [if_pos hd]
    simp only [Bool.or_eq_true, decide_eq_true_eq]
    have hdr : (0 : ℝ) ≤ (d : ℝ) := by exact_mod_cast hd
    by_cases ht : t ≤ 0
    · have htr : (t : ℝ) ≤ 0 := by exact_mod_cast ht
      have htn : (t : ℝ) * N ≤ 0 := mul_nonpos_iff.mpr (Or.inr ⟨htr, hN.le⟩)
      simp only [ht, true_or, true_iff]
      exact le_trans htn hdr
    · have htr : (0 : ℝ) < (t : ℝ) := by exact_mod_cast lt_of_not_ge ht
      have hiff : (t : ℝ) * N ≤ (d : ℝ) ↔ ((t : ℝ) * N) ^ 2 ≤ (d : ℝ) ^ 2 :=
        (pow_le_pow_iff_left₀ (mul_nonneg htr.le hN.le) hdr two_ne_zero).symm
      have hsq : ((t : ℝ) * N) ^ 2 = (t : ℝ) ^ 2 * (((dotProd v1 v1 : ℚ) : ℝ) *
          ((dotProd v2 v2 : ℚ) : ℝ)) := by rw [mul_pow, hNsq]
      have hcast : (t ^ 2 * (dotProd v1 v1 * dotProd v2 v2) ≤ d ^ 2) ↔
          ((t : ℝ) * N) ^ 2 ≤ (d : ℝ) ^ 2 := by
        rw [hsq]
        constructor
        · intro h; exact_mod_cast h
        · intro h; exact_mod_cast h
      simp only [ht, false_or]
      exact hcast.trans hiff.symm
  · rw [if_neg hd]
    simp only [Bool.and_eq_true, decide_eq_true_eq]
    have hdr : (d : ℝ) < 0 := by exact_mod_cast lt_of_not_ge hd
    by_cases ht : t ≤ 0
    · have htr : (t : ℝ) ≤ 0 := by exact_mod_cast ht
      have htn : (0 : ℝ) ≤ (-(t : ℝ)) * N := mul_nonneg (by linarith) hN.le
      have hiff : (-(d : ℝ)) ≤ (-(t : ℝ)) * N ↔
          (-(d : ℝ)) ^ 2 ≤ ((-(t : ℝ)) * N) ^ 2 :=
        (pow_le_pow_iff_left₀ (by linarith) htn two_ne_zero).symm
      have hsq : ((-(t : ℝ)) * N) ^ 2 = (t : ℝ) ^ 2 * (((dotProd v1 v1 : ℚ) : ℝ) *
          ((dotProd v2 v2 : ℚ) : ℝ)) := by rw [mul_pow, hNsq]; ring
      have hcast : (d ^ 2 ≤ t ^ 2 * (dotProd v1 v1 * dotProd v2 v2)) ↔
          (-(d : ℝ)) ^ 2 ≤ ((-(t : ℝ)) * N) ^ 2 := by
        rw [hsq, neg_pow]
        constructor
        · intro h
          have : ((d : ℝ)) ^ 2 ≤ (t : ℝ) ^ 2 * (((dotProd v1 v1 : ℚ) : ℝ) *
              ((dotProd v2 v2 : ℚ) : ℝ)) := by exact_mod_cast h
          simpa using this
        · intro h
          have : ((d : ℝ)) ^ 2 ≤ (t : ℝ) ^ 2 * (((dotProd v1 v1 : ℚ) : ℝ) *
              ((dotProd v2 v2 : ℚ) : ℝ)) := by simpa using h
          exact_mod_cast this
      have hneg : (-(d : ℝ)) ≤ (-(t : ℝ)) * N ↔ (t : ℝ) * N ≤ (d : ℝ) := by
        constructor
        · intro h; nlinarith
        · intro h; nlinarith
      simp only [ht, true_and]
      exact hcast.trans (hiff.symm.trans hneg)
    · have htr : (0 : ℝ) < (t : ℝ) := by exact_mod_cast lt_of_not_ge ht
      have : (0 : ℝ) < (t : ℝ) * N := mul_pos htr hN
      simp only [ht, false_and, false_iff]
      intro h
      linarith

/-! ## Union-find: the fuel-based `find` computes roots, `union` merges
exactly two classes -/

/-- A root of the parent forest: a node that is its own parent. -/
def isRoot (p : List ℕ) (x : ℕ) : Prop := parentStep p x = x

/-- Well-formed parent forest over the id space `[0, n)`: correct length,
parent pointers stay inside `[0, n)`, and every node reaches a root by
iterating the parent map (acyclicity).  `parent = list(range(n))` establishes
it and `union` preserves it. -/
def WF (p : List ℕ) (n : ℕ) : Prop :=
  p.length = n ∧ (∀ x, x < n → parentStep p x < n) ∧
    ∀ x, x < n → ∃ k, isRoot p ((parentStep p)^[k] x)

theorem parentStep_range {n x : ℕ} (hx : x < n) : parentStep (List.range n) x = x := by
  unfold parentStep
  rw [List.getD_eq_getElem _ _ (by simpa using hx)]
  exact List.getElem_range _ _

theorem WF_range (n : ℕ) : WF (List.range n) n := by
  refine ⟨List.length_range n, ?_, ?_⟩
  · intro x hx; rw [parentStep_range hx]; exact hx
  · intro x hx
    exact ⟨0, by simpa [isRoot] using parentStep_range hx⟩

theorem iterate_parentStep_lt {p : List ℕ} {n : ℕ} (hwf : WF p n) {x : ℕ} (hx : x < n) :
    ∀ k, (parentStep p)^[k] x < n := by
  intro k
  induction k with
  | zero => simpa using hx
  | succ k ih =>
      rw [Function.iterate_succ_apply']
      exact hwf.2.1 _ ih

/-- If some iterate of the parent map from `x` is a root, `findAux` returns
that root whenever it has at least that much fuel. -/
theorem findAux_eq_of_fix (p : List ℕ) :
    ∀ (fuel x k : ℕ), k ≤ fuel → isRoot p ((parentStep p)^[k] x) →
      findAux p fuel x = (parentStep p)^[k] x := by
  intro fuel
  induction fuel with
  | zero =>
      intro x k hk hroot
      interval_cases k
      simp [findAux]
  | succ fuel ih =>
      intro x k hk hroot
      rw [findAux]
      by_cases hx : parentStep p x = x
      · rw [if_pos hx]
        rw [Function.iterate_fixed hx k]
      · rw [if_neg hx]
        cases k with
        | zero => simp only [Function.iterate_zero, id_eq] at hroot; exact absurd hroot hx
        | succ k =>
            rw [Function.iterate_succ_apply]
            exact ih (parentStep p x) k (Nat.le_of_succ_le_succ hk)
              (by rwa [← Function.iterate_succ_apply])

/-- Pigeonhole: on a well-formed forest the minimal number of steps to a root
is below `n`. -/
theorem exists_fix_lt {p : List ℕ} {n : ℕ} (hwf : WF p n) {x : ℕ} (hx : x < n) :
    ∃ k, k < n ∧ isRoot p ((parentStep p)^[k] x) ∧
      ∀ j, j < k → ¬ isRoot p ((parentStep p)^[j] x) := by
  have hex : ∃ k, isRoot p ((parentStep p)^[k] x) := hwf.2.2 x hx
  classical
  set k0 := Nat.find hex with hk0
  refine ⟨k0, ?_, Nat.find_spec hex, fun j hj => Nat.find_min hex hj⟩
  by_contra hge
  push_neg at hge
  have hinj : Function.Injective (fun i : Fin (k0 + 1) =>
      (⟨(parentStep p)^[i.1] x, iterate_parentStep_lt hwf hx i.1⟩ : Fin n)) := by
    intro i j hij
    simp only [Fin.mk.injEq] at hij
    by_contra hne
    have hne' : i.1 ≠ j.1 := fun h => hne (Fin.ext h)
    rcases Nat.lt_or_ge i.1 j.1 with hlt | hge2
    · have hshift : ∀ m, (parentStep p)^[i.1 + m] x = (parentStep p)^[j.1 + m] x := by
        intro m
        rw [Nat.add_comm i.1 m, Nat.add_comm j.1 m,
          Function.iterate_add_apply, Function.iterate_add_apply, hij]
      have hroot2 : isRoot p ((parentStep p)^[i.1 + (k0 - j.1)] x) := by
        rw [hshift (k0 - j.1)]
        have : j.1 + (k0 - j.1) = k0 := by omega
        rw [this]
        exact Nat.find_spec hex
      have hsmall : i.1 + (k0 - j.1) < k0 := by omega
      exact Nat.find_min hex hsmall hroot2
    · have hlt2 : j.1 < i.1 := by omega
      have hshift : ∀ m, (parentStep p)^[j.1 + m] x = (parentStep p)^[i.1 + m] x := by
        intro m
        rw [Nat.add_comm j.1 m, Nat.add_comm i.1 m,
          Function.iterate_add_apply, Function.iterate_add_apply, hij]
      have hroot2 : isRoot p ((parentStep p)^[j.1 + (k0 - i.1)] x) := by
        rw [hshift (k0 - i.1)]
        have : i.1 + (k0 - i.1) = k0 := by omega
        rw [this]
        exact Nat.find_spec hex
      have hsmall : j.1 + (k0 - i.1) < k0 := by omega
      exact Nat.find_min hex hsmall hroot2
  have hcard := Fintype.card_le_of_injective _ hinj
  simp only [Fintype.card_fin] at hcard
  omega

theorem find_eq_iterate {p : List ℕ} {n : ℕ} (hwf : WF p n) {x : ℕ} (hx : x < n) :
    ∃ k, k < n ∧ find p x = (parentStep p)^[k] x ∧ isRoot p (find p x) := by
  obtain ⟨k, hk, hroot, -⟩ := exists_fix_lt hwf hx
  have : find p x = (parentStep p)^[k] x :=
    findAux_eq_of_fix p p.length x k (by rw [hwf.1]; omega) hroot
  exact ⟨k, hk, this, by rw [this]; exact hroot⟩

theorem find_of_isRoot {p : List ℕ} {x : ℕ} (hroot : isRoot p x) : find p x = x := by
  have h := findAux_eq_of_fix p p.length x 0 (Nat.zero_le _) (by simpa using hroot)
  simpa using h

theorem find_isRoot {p : List ℕ} {n : ℕ} (hwf : WF p n) {x : ℕ} (hx : x < n) :
    isRoot p (find p x) := (find_eq_iterate hwf hx).choose_spec.2.2

theorem find_lt {p : List ℕ} {n : ℕ} (hwf : WF p n) {x : ℕ} (hx : x < n) :
    find p x < n := by
  obtain ⟨k, -, hfind, -⟩ := find_eq_iterate hwf hx
  rw [hfind]
  exact iterate_parentStep_lt hwf hx k

theorem iterate_root_unique {p : List ℕ} {x a b : ℕ}
    (ha : isRoot p ((parentStep p)^[a] x)) (hb : isRoot p ((parentStep p)^[b] x)) :
    (parentStep p)^[a] x = (parentStep p)^[b] x := by
  rcases Nat.le_total a b with h | h
  · have : b - a + a = b := by omega
    rw [← this, Function.iterate_add_apply, Function.iterate_fixed ha]
  · have : a - b + b = a := by omega
    rw [← this, Function.iterate_add_apply, Function.iterate_fixed hb]

theorem find_eq_of_root_iterate {p : List ℕ} {n : ℕ} (hwf : WF p n) {x : ℕ} (hx : x < n)
    {m : ℕ} (hroot : isRoot p ((parentStep p)^[m] x)) :
    find p x = (parentStep p)^[m] x := by
  obtain ⟨k, -, hfind, hroot2⟩ := find_eq_iterate hwf hx
  rw [hfind] at hroot2 ⊢
  exact iterate_root_unique hroot2 hroot

theorem parentStep_set {p : List ℕ} {i a : ℕ} (hi : i < p.length) (z : ℕ) :
    parentStep (p.set i a) z = if z = i then a else parentStep p z := by
  unfold parentStep
  by_cases hz : z < p.length
  · rw [List.getD_eq_getElem _ _ (by simpa using hz), List.getD_eq_getElem _ _ hz,
      List.getElem_set]
    by_cases h : z = i
    · rw [if_pos h, if_pos h.symm]
    · rw [if_neg h, if_neg (fun hh => h hh.symm)]
  · have hz1 : (p.set i a).length ≤ z := by simp; omega
    have hz2 : p.length ≤ z := by omega
    rw [List.getD_eq_default _ _ hz1, List.getD_eq_default _ _ hz2]
    rw [if_neg (by omega)]

theorem union_length (p : List ℕ) (x y : ℕ) : (union p x y).length = p.length := by
  unfold union
  split_ifs <;> simp

/-- Master lemma for `union`: from any id `z`, iterating the new parent map
reaches (within `n` steps) a root of the new forest, namely the old root of
`y`'s class if `z` was in `x`'s class, and `z`'s unchanged old root
otherwise. -/
theorem union_master {p : List ℕ} {n : ℕ} (hwf : WF p n) {x y : ℕ} (hx : x < n) (hy : y < n)
    {z : ℕ} (hz : z < n) :
    ∃ m, m ≤ n ∧ isRoot (union p x y) ((parentStep (union p x y))^[m] z) ∧
      (parentStep (union p x y))^[m] z
        = (if find p z = find p x then find p y else find p z) := by
  by_cases hxy : find p x = find p y
  · have hu : union p x y = p := by simp [union, hxy]
    obtain ⟨k, hk, hroot, -⟩ := exists_fix_lt hwf hz
    have hfind : find p z = (parentStep p)^[k] z :=
      findAux_eq_of_fix p p.length z k (by rw [hwf.1]; omega) hroot
    refine ⟨k, by omega, by rw [hu]; exact hroot, ?_⟩
    rw [hu, ← hfind]
    split_ifs with h
    · rw [h, hxy]
    · rfl
  · have hpx_lt : find p x < n := find_lt hwf hx
    have hpy_lt : find p y < n := find_lt hwf hy
    have hpx_root : isRoot p (find p x) := find_isRoot hwf hx
    have hpy_root : isRoot p (find p y) := find_isRoot hwf hy
    have hu : union p x y = p.set (find p x) (find p y) := by simp [union, hxy]
    have hstep : ∀ w, parentStep (union p x y) w
        = if w = find p x then find p y else parentStep p w := by
      intro w
      rw [hu]
      exact parentStep_set (by rw [hwf.1]; exact hpx_lt) w
    obtain ⟨k, hk, hroot, hmin⟩ := exists_fix_lt hwf hz
    have hfind : find p z = (parentStep p)^[k] z :=
      findAux_eq_of_fix p p.length z k (by rw [hwf.1]; omega) hroot
    have havoid : ∀ j, j < k → (parentStep p)^[j] z ≠ find p x := by
      intro j hj habs
      exact hmin j hj (by rw [habs]; exact hpx_root)
    have hiter_eq : ∀ j, j ≤ k →
        (parentStep (union p x y))^[j] z = (parentStep p)^[j] z := by
      intro j
      induction j with
      | zero => intro _; simp
      | succ j ih =>
          intro hj
          rw [Function.iterate_succ_apply', Function.iterate_succ_apply',
            ih (by omega), hstep, if_neg (havoid j (by omega))]
    by_cases hcase : find p z = find p x
    · have h1 : (parentStep (union p x y))^[k] z = find p x := by
        rw [hiter_eq k le_rfl, ← hfind, hcase]
      have h2 : (parentStep (union p x y))^[k + 1] z = find p y := by
        rw [Function.iterate_succ_apply', h1, hstep, if_pos rfl]
      have hroot_py : isRoot (union p x y) (find p y) := by
        unfold isRoot
        rw [hstep, if_neg (Ne.symm hxy)]
        exact hpy_root
      refine ⟨k + 1, by omega, ?_, ?_⟩
      · rw [h2]; exact hroot_py
      · rw [h2, if_pos hcase]
    · have h1 : (parentStep (union p x y))^[k] z = find p z := by
        rw [hiter_eq k le_rfl, ← hfind]
      have hroot_r : isRoot (union p x y) (find p z) := by
        unfold isRoot
        rw [hstep, if_neg hcase]
        rw [← hfind] at hroot
        exact hroot
      refine ⟨k, by omega, ?_, ?_⟩
      · rw [h1]; exact hroot_r
      · rw [h1, if_neg hcase]

theorem find_union {p : List ℕ} {n : ℕ} (hwf : WF p n) {x y : ℕ} (hx : x < n) (hy : y < n)
    {z : ℕ} (hz : z < n) :
    find (union p x y) z = if find p z = find p x then find p y else find p z := by
  obtain ⟨m, hm, hroot, hval⟩ := union_master hwf hx hy hz
  have hlen : (union p x y).length = n := by rw [union_length, hwf.1]
  have := findAux_eq_of_fix (union p x y) (union p x y).length z m (by omega) hroot
  rw [find, this, hval]

theorem WF_union {p : List ℕ} {n : ℕ} (hwf : WF p n) {x y : ℕ} (hx : x < n) (hy : y < n) :
    WF (union p x y) n := by
  refine ⟨by rw [union_length, hwf.1], ?_, ?_⟩
  · intro w hw
    by_cases hxy : find p x = find p y
    · have hu : union p x y = p := by simp [union, hxy]
      rw [hu]; exact hwf.2.1 w hw
    · have hu : union p x y = p.set (find p x) (find p y) := by simp [union, hxy]
      rw [hu, parentStep_set (by rw [hwf.1]; exact find_lt hwf hx) w]
      split_ifs
      · exact find_lt hwf hy
      · exact hwf.2.1 w hw
  · intro w hw
    obtain ⟨m, -, hroot, -⟩ := union_master hwf hx hy hw
    exact ⟨m, hroot⟩

/-- The union-find fold used by `parentFinal`. -/
def foldUnions (pairs : List (ℕ × ℕ)) (p : List ℕ) : List ℕ :=
  pairs.foldl (fun p ij => union p ij.1 ij.2) p

theorem WF_foldUnions {n : ℕ} :
    ∀ (pairs : List (ℕ × ℕ)) (p : List ℕ), WF p n →
      (∀ q ∈ pairs, q.1 < n ∧ q.2 < n) → WF (foldUnions pairs p) n := by
  intro pairs
  induction pairs with
  | nil => intro p hwf _; exact hwf
  | cons q rest ih =>
      intro p hwf hb
      have hq := hb q (by simp)
      exact ih (union p q.1 q.2) (WF_union hwf hq.1 hq.2)
        (fun r hr => hb r (by simp [hr]))

/-- Connectivity grows along the fold: a processed pair ends up in one class,
and classes never split. -/
theorem foldUnions_connects {n : ℕ} :
    ∀ (pairs : List (ℕ × ℕ)) (p : List ℕ), WF p n →
      (∀ q ∈ pairs, q.1 < n ∧ q.2 < n) →
      ∀ i j : ℕ, i < n → j < n →
        ((i, j) ∈ pairs ∨ find p i = find p j) →
        find (foldUnions pairs p) i = find (foldUnions pairs p) j := by
  intro pairs
  induction pairs with
  | nil =>
      intro p hwf hb i j hi hj hij
      rcases hij with h | h
      · simp at h
      · exact h
  | cons q rest ih =>
      intro p hwf hb i j hi hj hij
      have hq := hb q (by simp)
      have hwf2 : WF (union p q.1 q.2) n := WF_union hwf hq.1 hq.2
      have hb2 : ∀ r ∈ rest, r.1 < n ∧ r.2 < n := fun r hr => hb r (by simp [hr])
      rcases hij with h | h
      · rcases List.mem_cons.mp h with h | h
        · subst h
          have hci : find (union p i j) i = find p j := by
            rw [find_union hwf hi hj hi, if_pos rfl]
          have hcj : find (union p i j) j = find p j := by
            rw [find_union hwf hi hj hj]
            split_ifs with hh
            · rw [hh]
            · rfl
          exact ih (union p i j) hwf2 hb2 i j hi hj (Or.inr (by rw [hci, hcj]))
        · exact ih (union p q.1 q.2) hwf2 hb2 i j hi hj (Or.inl h)
      · have : find (union p q.1 q.2) i = find (union p q.1 q.2) j := by
          rw [find_union hwf hq.1 hq.2 hi, find_union hwf hq.1 hq.2 hj, h]
        exact ih (union p q.1 q.2) hwf2 hb2 i j hi hj (Or.inr this)

/-- An id never mentioned by any processed pair keeps a singleton class. -/
theorem foldUnions_singleton {n : ℕ} :
    ∀ (pairs : List (ℕ × ℕ)) (p : List ℕ), WF p n →
      (∀ q ∈ pairs, q.1 < n ∧ q.2 < n) →
      ∀ i : ℕ, i < n →
        (∀ z, z < n → (find p z = i ↔ z = i)) →
        (∀ q ∈ pairs, q.1 ≠ i ∧ q.2 ≠ i) →
        ∀ z, z < n → (find (foldUnions pairs p) z = i ↔ z = i) := by
  intro pairs
  induction pairs with
  | nil => intro p hwf hb i hi hinv _ z hz; exact hinv z hz
  | cons q rest ih =>
      intro p hwf hb i hi hinv hni z hz
      have hq := hb q (by simp)
      have hqi := hni q (by simp)
      have hwf2 : WF (union p q.1 q.2) n := WF_union hwf hq.1 hq.2
      refine ih (union p q.1 q.2) hwf2 (fun r hr => hb r (by simp [hr])) i hi ?_
        (fun r hr => hni r (by simp [hr])) z hz
      intro w hw
      rw [find_union hwf hq.1 hq.2 hw]
      split_ifs with hh
      · constructor
        · intro habs
          exact absurd ((hinv q.2 hq.2).mp habs) hqi.2
        · intro habs
          have h1 : find p i = i := (hinv i hi).mpr rfl
          have h2 : find p q.1 = i := by rw [← hh, habs, h1]
          exact absurd ((hinv q.1 hq.1).mp h2) hqi.1
      · exact hinv w hw

theorem find_range {n z : ℕ} (hz : z < n) : find (List.range n) z = z :=
  find_of_isRoot (by simpa [isRoot] using parentStep_range hz)

/-! ## Helper lemmas on `firstDedup`, the sort key, and the pair tests -/

theorem mem_firstDedupAux : ∀ (l seen : List ℕ) (a : ℕ),
    a ∈ firstDedupAux seen l ↔ a ∈ l ∧ a ∉ seen := by
  intro l
  induction l with
  | nil => intro seen a; simp [firstDedupAux]
  | cons x xs ih =>
      intro seen a
      rw [firstDedupAux]
      by_cases hx : x ∈ seen
      · rw [if_pos hx, ih]
        constructor
        · rintro ⟨h1, h2⟩; exact ⟨by simp [h1], h2⟩
        · rintro ⟨h1, h2⟩
          rcases List.mem_cons.mp h1 with h | h
          · exact absurd (h ▸ hx) h2
          · exact ⟨h, h2⟩
      · rw [if_neg hx]
        simp only [List.mem_cons, ih]
        constructor
        · rintro (h | ⟨h1, h2⟩)
          · exact ⟨Or.inl h, h ▸ hx⟩
          · exact ⟨Or.inr h1, fun hs => h2 (by simp [hs])⟩
        · rintro ⟨h1, h2⟩
          rcases h1 with h | h
          · exact Or.inl h
          · by_cases hax : a = x
            · exact Or.inl hax
            · exact Or.inr ⟨h, by simp [hax, h2]⟩

theorem mem_firstDedup (l : List ℕ) (a : ℕ) : a ∈ firstDedup l ↔ a ∈ l := by
  rw [firstDedup, mem_firstDedupAux]
  simp

theorem nodup_firstDedupAux : ∀ (l seen : List ℕ), (firstDedupAux seen l).Nodup := by
  intro l
  induction l with
  | nil => intro seen; simp [firstDedupAux]
  | cons x xs ih =>
      intro seen
      rw [firstDedupAux]
      split_ifs with hx
      · exact ih seen
      · refine List.Nodup.cons ?_ (ih (x :: seen))
        intro hmem
        exact ((mem_firstDedupAux xs (x :: seen) x).mp hmem).2 (by simp)

theorem nodup_firstDedup (l : List ℕ) : (firstDedup l).Nodup := nodup_firstDedupAux l []

theorem firstDedupAux_of_disjoint : ∀ (l seen : List ℕ), l.Nodup →
    (∀ a ∈ l, a ∉ seen) → firstDedupAux seen l = l := by
  intro l
  induction l with
  | nil => intro seen _ _; rfl
  | cons x xs ih =>
      intro seen hnd hdisj
      rw [firstDedupAux, if_neg (hdisj x (by simp))]
      rw [ih (x :: seen) (List.Nodup.of_cons hnd)]
      intro a ha
      simp only [List.mem_cons]
      push_neg
      exact ⟨fun hax => (List.nodup_cons.mp hnd).1 (hax ▸ ha), hdisj a (by simp [ha])⟩

theorem firstDedup_of_nodup {l : List ℕ} (h : l.Nodup) : firstDedup l = l :=
  firstDedupAux_of_disjoint l [] h (by simp)

/-- Elements of `firstDedup l` appear in order of first occurrence: if `a`
precedes `b` in the output, some occurrence of `a` in `l` precedes every
occurrence of `b`. -/
theorem firstDedupAux_pairwise : ∀ (l seen : List ℕ),
    (firstDedupAux seen l).Pairwise (fun a b =>
      ∃ i, ∃ h : i < l.length, l[i] = a ∧ ∀ j, ∀ hj : j < l.length, l[j] = b → i < j) := by
  intro l
  induction l with
  | nil => intro seen; simp [firstDedupAux]
  | cons x xs ih =>
      intro seen
      rw [firstDedupAux]
      have lift : ∀ (s : List ℕ) (a b : ℕ), b ∉ s → x ∈ s →
          (∃ i, ∃ h : i < xs.length, xs[i] = a ∧
            ∀ j, ∀ hj : j < xs.length, xs[j] = b → i < j) →
          (∃ i, ∃ h : i < (x :: xs).length, (x :: xs)[i] = a ∧
            ∀ j, ∀ hj : j < (x :: xs).length, (x :: xs)[j] = b → i < j) := by
        rintro s a b hb hx ⟨i, hi, hval, hall⟩
        refine ⟨i + 1, by simpa using hi, by simpa using hval, ?_⟩
        intro j hj hjb
        cases j with
        | zero =>
            simp only [List.getElem_cons_zero] at hjb
            exact absurd (hjb ▸ hx) hb
        | succ j =>
            simp only [List.getElem_cons_succ] at hjb
            have := hall j (by simpa using hj) hjb
            omega
      split_ifs with hx
      · refine (ih seen).imp_of_mem ?_
        intro a b ha hb hr
        exact lift seen a b ((mem_firstDedupAux xs seen b).mp hb).2 hx hr
      · refine List.Pairwise.cons ?_ ?_
        · intro b hb
          refine ⟨0, by simp, by simp, ?_⟩
          intro j hj hjb
          cases j with
          | zero =>
              simp only [List.getElem_cons_zero] at hjb
              have := ((mem_firstDedupAux xs (x :: seen) b).mp hb).2
              exact absurd (by simp [hjb]) this
          | succ j => omega
        · refine (ih (x :: seen)).imp_of_mem ?_
          intro a b ha hb hr
          exact lift (x :: seen) a b ((mem_firstDedupAux xs (x :: seen) b).mp hb).2
            (by simp) hr

theorem firstDedup_pairwise (l : List ℕ) :
    (firstDedup l).Pairwise (fun a b =>
      ∃ i, ∃ h : i < l.length, l[i] = a ∧ ∀ j, ∀ hj : j < l.length, l[j] = b → i < j) :=
  firstDedupAux_pairwise l []

theorem lexLt_iff : ∀ a b : Word, lexLt a b = true ↔ List.Lex (· < ·) a b := by
  intro a
  induction a with
  | nil =>
      intro b
      cases b with
      | nil => simp [lexLt]
      | cons y ys => simp [lexLt]; exact List.Lex.nil
  | cons x xs ih =>
      intro b
      cases b with
      | nil =>
          simp only [lexLt, Bool.false_eq_true, false_iff]
          intro h; cases h
      | cons y ys =>
          simp only [lexLt, Bool.or_eq_true, Bool.and_eq_true, decide_eq_true_eq, ih]
          constructor
          · rintro (h | ⟨h1, h2⟩)
            · exact List.Lex.rel h
            · rw [h1]; exact List.Lex.cons h2
          · intro h
            cases h with
            | rel h => exact Or.inl h
            | cons h => exact Or.inr ⟨rfl, h⟩

theorem lexLt_irrefl (a : Word) : lexLt a a = false := by
  by_contra h
  have h1 : lexLt a a = true := by
    cases hb : lexLt a a
    · exact absurd hb h
    · rfl
  have := (lexLt_iff a a).mp h1
  have hirr : ¬ List.Lex (· < ·) a a := by
    have : ¬ (a : List Char) < a := lt_irrefl a
    exact this
  exact hirr this

theorem lexLt_asymm {a b : Word} (h1 : lexLt a b = true) : lexLt b a = false := by
  by_contra h
  have h2 : lexLt b a = true := by
    cases hb : lexLt b a
    · exact absurd hb h
    · rfl
  have ha := (lexLt_iff a b).mp h1
  have hb := (lexLt_iff b a).mp h2
  have hlt1 : (a : List Char) < b := ha
  have hlt2 : (b : List Char) < a := hb
  exact absurd (hlt1.trans hlt2) (lt_irrefl a)

theorem lexLt_trans {a b c : Word} (h1 : lexLt a b = true) (h2 : lexLt b c = true) :
    lexLt a c = true := by
  rw [lexLt_iff] at h1 h2 ⊢
  have hlt1 : (a : List Char) < b := h1
  have hlt2 : (b : List Char) < c := h2
  exact hlt1.trans hlt2

theorem lexLt_total (a b : Word) : lexLt a b = true ∨ lexLt b a = true ∨ a = b := by
  rcases lt_trichotomy (a : List Char) b with h | h | h
  · exact Or.inl ((lexLt_iff a b).mpr h)
  · exact Or.inr (Or.inr h)
  · exact Or.inr (Or.inl ((lexLt_iff b a).mpr h))

theorem wordKeyLe_refl (a : Word) : wordKeyLe a a = true := by
  simp [wordKeyLe, lexLt_irrefl]

theorem wordKeyLe_total (a b : Word) : (wordKeyLe a b || wordKeyLe b a) = true := by
  simp only [wordKeyLe, Bool.or_eq_true, Bool.and_eq_true, decide_eq_true_eq,
    Bool.not_eq_true']
  rcases Nat.lt_trichotomy a.length b.length with h | h | h
  · exact Or.inl (Or.inl h)
  · rcases lexLt_total b a with hl | hl | hl
    · exact Or.inr (Or.inr ⟨h.symm, lexLt_asymm hl⟩)
    · exact Or.inl (Or.inr ⟨h, lexLt_asymm hl⟩)
    · exact Or.inl (Or.inr ⟨h, by rw [hl, lexLt_irrefl]⟩)
  · exact Or.inr (Or.inl h)

theorem wordKeyLe_trans (a b c : Word) (h1 : wordKeyLe a b = true)
    (h2 : wordKeyLe b c = true) : wordKeyLe a c = true := by
  simp only [wordKeyLe, Bool.or_eq_true, Bool.and_eq_true, decide_eq_true_eq,
    Bool.not_eq_true'] at h1 h2 ⊢
  rcases h1 with h1 | ⟨h1e, h1l⟩ <;> rcases h2 with h2 | ⟨h2e, h2l⟩
  · exact Or.inl (h1.trans h2)
  · exact Or.inl (h2e ▸ h1)
  · exact Or.inl (h1e ▸ h2)
  · refine Or.inr ⟨h1e.trans h2e, ?_⟩
    have hab : ¬ List.Lex (· < ·) b a := by
      intro hc
      rw [(lexLt_iff b a).mpr hc] at h1l
      cases h1l
    have hbc : ¬ List.Lex (· < ·) c b := by
      intro hc
      rw [(lexLt_iff c b).mpr hc] at h2l
      cases h2l
    have hac : ¬ List.Lex (· < ·) c a := by
      intro hc
      have h1 : (a : List Char) ≤ b := not_lt.mp hab
      have h2 : (b : List Char) ≤ c := not_lt.mp hbc
      have h3 : (c : List Char) < a := hc
      exact absurd (lt_of_lt_of_le h3 (h1.trans h2)) (lt_irrefl c)
    cases hb : lexLt c a
    · rfl
    · exact absurd ((lexLt_iff c a).mp hb) hac

/-! ## Pair tests: symmetry, and membership in the merge list -/

theorem sharesBigram_symm (E : List (Word × Vec)) (i j : ℕ) :
    sharesBigram E i j = sharesBigram E j i := by
  unfold sharesBigram
  rw [Finset.inter_comm]

theorem passesPrefilters_symm (C : Config) (w1 w2 : Word) :
    passesPrefilters C w1 w2 = passesPrefilters C w2 w1 := by
  unfold passesPrefilters
  rw [Finset.inter_comm]
  congr 1
  · exact decide_eq_decide.mpr (by omega)
  · exact decide_eq_decide.mpr (by omega)

theorem edit_distance_symm (s1 s2 : Word) : edit_distance s1 s2 = edit_distance s2 s1 := by
  rw [edit_distance_eq_lev, edit_distance_eq_lev, lev_symm]

theorem cosine_similarity_ge_symm (t : ℚ) (v1 v2 : Vec) :
    cosine_similarity_ge t v1 v2 = cosine_similarity_ge t v2 v1 := by
  simp only [cosine_similarity_ge]
  rw [dotProd_comm v2 v1, mul_comm (dotProd v2 v2) (dotProd v1 v1)]
  by_cases h1 : dotProd v1 v1 = 0 <;> by_cases h2 : dotProd v2 v2 = 0 <;>
    simp [h1, h2]

theorem wordAt_lt {E : List (Word × Vec)} {i : ℕ} (hi : i < E.length) :
    wordAt E i = (E.get ⟨i, hi⟩).1 := by
  unfold wordAt words
  rw [List.getD_eq_getElem _ _ (by simpa using hi)]
  simp

theorem vecAt_lt {E : List (Word × Vec)} {i : ℕ} (hi : i < E.length) :
    vecAt E i = (E.get ⟨i, hi⟩).2 := by
  unfold vecAt vectors
  rw [List.getD_eq_getElem _ _ (by simpa using hi)]
  simp

theorem entry_mem {E : List (Word × Vec)} {i : ℕ} (hi : i < E.length) :
    (wordAt E i, vecAt E i) ∈ E := by
  rw [wordAt_lt hi, vecAt_lt hi]
  exact List.get_mem E i hi

/-- Membership in the merge list: `union(i, j)` is called exactly on the pairs
that reach the similarity test of lines 447-454 and pass both of its checks. -/
theorem mem_mergedPairs (C : Config) (E : List (Word × Vec)) (i j : ℕ) :
    (i, j) ∈ mergedPairs C E ↔
      (reachesSimilarityTest C E i j = true ∧
       edit_distance (wordAt E i) (wordAt E j) ≤ C.spelling_threshold ∧
       cosine_similarity_ge C.semantic_threshold (vecAt E i) (vecAt E j) = true) := by
  unfold mergedPairs candidates reachesSimilarityTest passesSimilarity
  simp only [List.mem_flatMap, List.mem_map, List.mem_filter, List.mem_range,
    Bool.and_eq_true, decide_eq_true_eq]
  constructor
  · rintro ⟨a, ha, b, ⟨⟨hb, hshare⟩, ⟨hab, hpre⟩, hedit, hcos⟩, heq⟩
    have h1 : a = i := congrArg Prod.fst heq
    have h2 : b = j := congrArg Prod.snd heq
    subst h1; subst h2
    exact ⟨⟨⟨⟨hab, hb⟩, hshare⟩, hpre⟩, hedit, hcos⟩
  · rintro ⟨⟨⟨⟨hij, hj⟩, hshare⟩, hpre⟩, hedit, hcos⟩
    exact ⟨i, by omega, j, ⟨⟨hj, hshare⟩, ⟨hij, hpre⟩, hedit, hcos⟩, rfl⟩

theorem mergedPairs_bounds (C : Config) (E : List (Word × Vec)) :
    ∀ q ∈ mergedPairs C E, q.1 < q.2 ∧ q.2 < E.length := by
  intro q hq
  obtain ⟨i, j⟩ := q
  have := (mem_mergedPairs C E i j).mp hq
  unfold reachesSimilarityTest at this
  simp only [Bool.and_eq_true, decide_eq_true_eq] at this
  exact ⟨this.1.1.1.1, this.1.1.1.2⟩

/-- Python dict lookup returns the stored value (keys unique). -/
theorem dictGet_of_mem : ∀ {E : List (Word × Vec)} {w : Word} {v : Vec},
    (words E).Nodup → (w, v) ∈ E → dictGet E w = v := by
  intro E
  induction E with
  | nil => intro w v _ hmem; simp at hmem
  | cons e rest ih =>
      intro w v hnd hmem
      rcases List.mem_cons.mp hmem with h | h
      · rw [← h]
        unfold dictGet
        rw [List.find?_cons_of_pos _ (by simp)]
        simp
      · have hw : w ∈ words rest := by
          unfold words
          exact List.mem_map.mpr ⟨(w, v), h, rfl⟩
        have hne : e.1 ≠ w := by
          intro habs
          have : e.1 ∈ words rest := habs ▸ hw
          exact (List.nodup_cons.mp (by simpa [words] using hnd)).1 this
        unfold dictGet
        rw [List.find?_cons_of_neg _ (by simpa using hne)]
        exact ih (by simpa [words] using (List.nodup_cons.mp (by simpa [words] using hnd)).2) h

theorem dictGet_at {E : List (Word × Vec)} (hnd : (words E).Nodup) {i : ℕ}
    (hi : i < E.length) : dictGet E (wordAt E i) = vecAt E i :=
  dictGet_of_mem hnd (entry_mem hi)

/-- The first element of the sort of line 472 is a member of the cluster and
minimal under the key `(length, lexicographic)`. -/
theorem mergeSort_head_min (l : List Word) (hne : l ≠ []) :
    (l.mergeSort wordKeyLe).headD [] ∈ l ∧
      ∀ w ∈ l, wordKeyLe ((l.mergeSort wordKeyLe).headD []) w = true := by
  have hperm := List.mergeSort_perm l wordKeyLe
  have hsorted := List.sorted_mergeSort wordKeyLe_trans wordKeyLe_total l
  cases hms : l.mergeSort wordKeyLe with
  | nil =>
      exfalso
      rw [hms] at hperm
      exact hne (hperm.nil_eq).symm
  | cons h t =>
      rw [hms] at hperm hsorted
      simp only [List.headD_cons]
      constructor
      · exact hperm.mem_iff.mp (by simp)
      · intro w hw
        have hw2 : w ∈ h :: t := hperm.mem_iff.mpr hw
        rcases List.mem_cons.mp hw2 with hwh | hwt
        · rw [hwh]; exact wordKeyLe_refl h
        · exact (List.pairwise_cons.mp hsorted).1 w hwt

/-! ## Structure of the extracted groups -/

theorem parentFinal_eq (C : Config) (E : List (Word × Vec)) :
    parentFinal C E = foldUnions (mergedPairs C E) (List.range E.length) := rfl

theorem mergedPairs_bounds' (C : Config) (E : List (Word × Vec)) :
    ∀ q ∈ mergedPairs C E, q.1 < E.length ∧ q.2 < E.length := by
  intro q hq
  have h := mergedPairs_bounds C E q hq
  omega

theorem WF_parentFinal (C : Config) (E : List (Word × Vec)) :
    WF (parentFinal C E) E.length := by
  rw [parentFinal_eq]
  exact WF_foldUnions _ _ (WF_range _) (mergedPairs_bounds' C E)

/-- A pair on which `union` was called ends in one class of the final forest. -/
theorem merged_connected (C : Config) (E : List (Word × Vec)) {i j : ℕ}
    (h : (i, j) ∈ mergedPairs C E) :
    find (parentFinal C E) i = find (parentFinal C E) j := by
  have hb := mergedPairs_bounds C E (i, j) h
  rw [parentFinal_eq]
  exact foldUnions_connects _ _ (WF_range _) (mergedPairs_bounds' C E) i j
    (by omega) (by omega) (Or.inl h)

theorem mem_fiber (C : Config) (E : List (Word × Vec)) (r i : ℕ) :
    i ∈ (List.range E.length).filter
        (fun i => decide (find (parentFinal C E) i = r)) ↔
      i < E.length ∧ find (parentFinal C E) i = r := by
  simp [List.mem_filter]

theorem root_mem_roots (C : Config) (E : List (Word × Vec)) {i : ℕ} (hi : i < E.length) :
    find (parentFinal C E) i
      ∈ firstDedup ((List.range E.length).map (find (parentFinal C E))) := by
  rw [mem_firstDedup]
  exact List.mem_map.mpr ⟨i, by simpa using hi, rfl⟩

theorem fiber_nonempty (C : Config) (E : List (Word × Vec)) {r : ℕ}
    (hr : r ∈ firstDedup ((List.range E.length).map (find (parentFinal C E)))) :
    ∃ i, i ∈ (List.range E.length).filter
      (fun i => decide (find (parentFinal C E) i = r)) := by
  rw [mem_firstDedup] at hr
  obtain ⟨i, hi, hfi⟩ := List.mem_map.mp hr
  exact ⟨i, (mem_fiber C E r i).mpr ⟨by simpa using hi, hfi⟩⟩

/-- C3 (claim theorem): the groups extracted at the end of
`deduplicate_by_similarity` form a partition of the id space `[0, n)`: every
input word-id lies in some group, distinct groups are disjoint (so each id
lies in exactly one), and groups contain only genuine ids. -/
theorem groups_partition (C : Config) (E : List (Word × Vec)) :
    (∀ i, i < E.length → ∃ g ∈ groupsList C E, i ∈ g.2) ∧
    ((groupsList C E).map Prod.snd).Pairwise List.Disjoint ∧
    (∀ g ∈ groupsList C E, ∀ i ∈ g.2, i < E.length) := by
  refine ⟨?_, ?_, ?_⟩
  · intro i hi
    refine ⟨(find (parentFinal C E) i,
      (List.range E.length).filter
        (fun z => decide (find (parentFinal C E) z = find (parentFinal C E) i))), ?_, ?_⟩
    · unfold groupsList
      exact List.mem_map.mpr ⟨find (parentFinal C E) i, root_mem_roots C E hi, rfl⟩
    · exact (mem_fiber C E _ i).mpr ⟨hi, rfl⟩
  · unfold groupsList
    rw [List.map_map]
    refine List.Pairwise.map _ ?_ ((nodup_firstDedup _) : _)
    intro r s hrs
    intro a ha hb
    have h1 := (mem_fiber C E r a).mp (by simpa using ha)
    have h2 := (mem_fiber C E s a).mp (by simpa using hb)
    exact hrs (h1.2 ▸ h2.2)
  · intro g hg i hi
    unfold groupsList at hg
    obtain ⟨r, -, hgr⟩ := List.mem_map.mp hg
    rw [← hgr] at hi
    exact ((mem_fiber C E r i).mp hi).1

/-- C8 (claim theorem): clusters are emitted in first-appearance order of
their earliest member: whenever one group precedes another in the extracted
list, it has a member id smaller than every member id of the later group
(equivalently, its smallest member id is smaller). -/
theorem emission_order_by_min_id (C : Config) (E : List (Word × Vec)) :
    (groupsList C E).Pairwise (fun g h => ∃ a ∈ g.2, ∀ b ∈ h.2, a < b) := by
  unfold groupsList
  rw [List.pairwise_map]
  have hpw := firstDedup_pairwise ((List.range E.length).map (find (parentFinal C E)))
  refine hpw.imp ?_
  intro r s hrs
  obtain ⟨i, hi, hval, hall⟩ := hrs
  have hlen : ((List.range E.length).map (find (parentFinal C E))).length = E.length := by
    simp
  have hi' : i < E.length := by omega
  have hfi : find (parentFinal C E) i = r := by
    have := hval
    rwa [List.getElem_map, List.getElem_range] at this
  refine ⟨i, (mem_fiber C E r i).mpr ⟨hi', hfi⟩, ?_⟩
  intro b hb
  have hb' := (mem_fiber C E s b).mp hb
  have hbl : b < ((List.range E.length).map (find (parentFinal C E))).length := by omega
  have hval2 : ((List.range E.length).map (find (parentFinal C E)))[b] = s := by
    rw [List.getElem_map, List.getElem_range]
    exact hb'.2
  exact hall b hbl hval2

/-- Decoding the Boolean sort key: `wordKeyLe c w` means `c` is no larger
than `w` under `(length, lexicographic)`. -/
theorem wordKeyLe_min_decode {c w : Word} (h : wordKeyLe c w = true) :
    c.length < w.length ∨ (c.length = w.length ∧ ¬ List.Lex (· < ·) w c) := by
  unfold wordKeyLe at h
  simp only [Bool.or_eq_true, Bool.and_eq_true, decide_eq_true_eq,
    Bool.not_eq_true'] at h
  rcases h with h | ⟨he, hl⟩
  · exact Or.inl h
  · refine Or.inr ⟨he, ?_⟩
    intro habs
    rw [(lexLt_iff _ _).mpr habs] at hl
    cases hl

/-- C4 (claim theorem): for every extracted cluster, the canonical
representative chosen at lines 466-474 is a member of the cluster, minimal
under the Python sort key `(len(word), word)` — shortest first, ties broken
lexicographically — and the entry emitted for the cluster is
`(canonical, vector)` where that pair is literally an entry of the input
collection: the canonical member's original vector, never an average or other
derived value. -/
theorem canonical_min_and_original_vector (C : Config) (E : List (Word × Vec))
    (hnd : (words E).Nodup) :
    ∀ g ∈ groupsList C E,
      ∃ c : Word,
        ((g.2.map (fun i => wordAt E i)).mergeSort wordKeyLe).headD [] = c ∧
        c ∈ g.2.map (fun i => wordAt E i) ∧
        (∀ w ∈ g.2.map (fun i => wordAt E i),
          c.length < w.length ∨ (c.length = w.length ∧ ¬ List.Lex (· < ·) w c)) ∧
        (c, dictGet E c) ∈ E ∧
        (c, dictGet E c) ∈ deduplicate_by_similarity C E := by
  intro g hg
  have hne : g.2.map (fun i => wordAt E i) ≠ [] := by
    unfold groupsList at hg
    obtain ⟨r, hr, hgr⟩ := List.mem_map.mp hg
    obtain ⟨i, hi⟩ := fiber_nonempty C E hr
    rw [← hgr]
    simp only [ne_eq, List.map_eq_nil_iff]
    intro habs
    rw [habs] at hi
    simp at hi
  obtain ⟨hmem, hmin⟩ := mergeSort_head_min (g.2.map (fun i => wordAt E i)) hne
  refine ⟨((g.2.map (fun i => wordAt E i)).mergeSort wordKeyLe).headD [], rfl, hmem, ?_, ?_, ?_⟩
  · intro w hw
    exact wordKeyLe_min_decode (hmin w hw)
  · obtain ⟨i, hig, hwi⟩ := List.mem_map.mp hmem
    have hi : i < E.length := (groups_partition C E).2.2 g hg i hig
    rw [← hwi, dictGet_at hnd hi]
    exact entry_mem hi
  · unfold deduplicate_by_similarity
    exact List.mem_map.mpr ⟨g, hg, rfl⟩

/-! ## Claim theorems on the similarity test and example-based claims -/

/-- The source's default configuration: `spelling_threshold=2`,
`semantic_threshold=0.85`. -/
def defaultConfig : Config := {}

/-- Example input: the words `ab` and `ba` with identical one-dimensional
vectors (cosine similarity 1). -/
def exampleAB : List (Word × Vec) := [(['a', 'b'], [1]), (['b', 'a'], [1])]

/-- Example input with vectors of inconsistent dimensionality. -/
def exampleMalformed : List (Word × Vec) :=
  [(['c', 'a', 't'], [1, 0]), (['c', 'a', 't', 's'], [1])]

/-- Example input whose first word has an all-zero vector. -/
def exampleZero : List (Word × Vec) :=
  [(['c', 'a', 't'], [0, 0]), (['c', 'o', 't'], [1, 2])]

/-- Example input on which one merge (`cat`/`cot`) happens and `dog` stays. -/
def exampleRun : List (Word × Vec) :=
  [(['c', 'a', 't'], [1]), (['c', 'o', 't'], [1]), (['d', 'o', 'g'], [5])]

/-- C1 (claim theorem): `union(i, j)` is issued iff the pair reaches the
similarity test (candidate sharing a bigram, `i < j`, both cheap pre-filters
pass) and the exact edit distance is within `spelling_threshold` and the
cosine similarity is at least `semantic_threshold`; in particular a merged
pair always passed *both* threshold tests, so spelling-only or semantics-only
closeness never merges. -/
theorem union_called_iff_both_thresholds (C : Config) (E : List (Word × Vec)) (i j : ℕ) :
    ((i, j) ∈ mergedPairs C E ↔
      (reachesSimilarityTest C E i j = true ∧
       edit_distance (wordAt E i) (wordAt E j) ≤ C.spelling_threshold ∧
       cosine_similarity_ge C.semantic_threshold (vecAt E i) (vecAt E j) = true)) ∧
    ((i, j) ∈ mergedPairs C E →
      (edit_distance (wordAt E i) (wordAt E j) ≤ C.spelling_threshold ∧
       cosine_similarity_ge C.semantic_threshold (vecAt E i) (vecAt E j) = true)) := by
  refine ⟨mem_mergedPairs C E i j, ?_⟩
  intro h
  exact ((mem_mergedPairs C E i j).mp h).2

unseal Rat.mul Rat.inv Rat.add Rat.sub List.merge List.mergeSort in
/-- C2 (counterexample): `ab` and `ba` with identical vectors are a
true-positive pair under the default thresholds (edit distance 2, cosine
similarity 1), yet they share no padded bigram, so bigram blocking never
generates the pair: no merge is issued and the pass returns both words
unchanged.  This refutes the claim that every true-positive pair shares a
bigram and survives blocking. -/
theorem blocking_skips_bigramless_pair :
    edit_distance ['a', 'b'] ['b', 'a'] ≤ defaultConfig.spelling_threshold ∧
    cosine_similarity_ge defaultConfig.semantic_threshold [1] [1] = true ∧
    (['a', 'b'] : Word) ≠ ['b', 'a'] ∧
    sharesBigram exampleAB 0 1 = false ∧
    (1 : ℕ) ∉ candidates exampleAB 0 ∧
    mergedPairs defaultConfig exampleAB = [] ∧
    deduplicate_by_similarity defaultConfig exampleAB = exampleAB := by
  refine ⟨by decide, by decide, by decide, by decide, by decide, by decide, by decide⟩

/-- C2 (amended claim theorem): a true-positive pair *that shares at least one
padded bigram* does appear in the bigram-blocked candidate set (in both
directions).  The bigram-sharing hypothesis is necessary: see
`blocking_skips_bigramless_pair`. -/
theorem sharing_pair_in_candidates (C : Config) (E : List (Word × Vec)) (i j : ℕ)
    (hi : i < E.length) (hj : j < E.length)
    (hshare : sharesBigram E i j = true)
    (hedit : edit_distance (wordAt E i) (wordAt E j) ≤ C.spelling_threshold)
    (hcos : cosine_similarity_ge C.semantic_threshold (vecAt E i) (vecAt E j) = true) :
    j ∈ candidates E i ∧ i ∈ candidates E j := by
  constructor
  · unfold candidates
    rw [List.mem_filter]
    exact ⟨by simpa using hj, hshare⟩
  · unfold candidates
    rw [List.mem_filter]
    exact ⟨by simpa using hi, by rwa [sharesBigram_symm]⟩

unseal Rat.mul Rat.inv Rat.add Rat.sub in
/-- Witness for `sharing_pair_in_candidates` at a concrete input: `cat` and
`cot` with equal vectors under the default thresholds. -/
theorem sharing_pair_in_candidates_witness :
    (0 : ℕ) < exampleRun.length ∧ (1 : ℕ) < exampleRun.length ∧
    1 ∈ candidates exampleRun 0 ∧ 0 ∈ candidates exampleRun 1 :=
  ⟨by decide, by decide,
    (sharing_pair_in_candidates defaultConfig exampleRun 0 1 (by decide) (by decide)
      (by decide) (by decide) (by decide)).1,
    (sharing_pair_in_candidates defaultConfig exampleRun 0 1 (by decide) (by decide)
      (by decide) (by decide) (by decide)).2⟩

/-- C6 (claim theorem): `edit_distance` computes exactly the Levenshtein
distance: it is the least `k` such that some chain of `k` single-character
insert/delete/substitute operations transforms `s1` into `s2`. -/
theorem edit_distance_isLeast_editChain (s1 s2 : Word) :
    IsLeast {k | EditChain k s1 s2} (edit_distance s1 s2) := by
  rw [edit_distance_eq_lev]
  exact lev_isLeast s1 s2

/-- C10 (claim theorem): `edit_distance` is symmetric, and it vanishes exactly
on equal strings. -/
theorem edit_distance_symm_and_zero_iff (s1 s2 : Word) :
    edit_distance s1 s2 = edit_distance s2 s1 ∧
    (edit_distance s1 s2 = 0 ↔ s1 = s2) := by
  refine ⟨edit_distance_symm s1 s2, ?_⟩
  rw [edit_distance_eq_lev]
  exact lev_eq_zero_iff s1 s2

unseal Rat.mul Rat.inv Rat.add Rat.sub List.merge List.mergeSort in
/-- C9 (counterexample): on input whose two vectors have different lengths
(malformed per the spec), the pass performs no validation and does not fail:
the pair is compared (cosine on `zip`-truncated vectors), merged, and a
complete output is emitted.  This refutes "fails fast before any clustering
work begins and produces no partial output". -/
theorem malformed_input_still_clusters :
    (vecAt exampleMalformed 0).length ≠ (vecAt exampleMalformed 1).length ∧
    mergedPairs defaultConfig exampleMalformed = [(0, 1)] ∧
    deduplicate_by_similarity defaultConfig exampleMalformed
      = [(['c', 'a', 't'], [1, 0])] := by
  refine ⟨by decide, by decide, by decide⟩

/-- C9 (amended claim theorem): the clustering pass has no input validation:
the dot product silently truncates to the common prefix of the two vectors
(Python `zip`), and `deduplicate_by_similarity` always runs to completion,
emitting exactly one entry per extracted cluster, whatever the vector
dimensions. -/
theorem no_validation_zip_truncates :
    (∀ v1 v2 : Vec, dotProd v1 v2 = dotProd (v1.take v2.length) (v2.take v1.length)) ∧
    (∀ (C : Config) (E : List (Word × Vec)),
      (deduplicate_by_similarity C E).length = (groupsList C E).length) := by
  constructor
  · intro v1
    induction v1 with
    | nil => intro v2; cases v2 <;> simp [dotProd]
    | cons a v ih =>
        intro v2
        cases v2 with
        | nil => simp [dotProd]
        | cons b w => simp [dotProd, ih w]
  · intro C E
    unfold deduplicate_by_similarity
    rw [List.length_map]

theorem filter_range_eq_singleton : ∀ {n i : ℕ}, i < n →
    (List.range n).filter (fun z => decide (z = i)) = [i] := by
  intro n
  induction n with
  | zero => intro i hi; omega
  | succ n ih =>
      intro i hi
      rw [List.range_succ, List.filter_append]
      by_cases h : i < n
      · rw [ih h]
        have : (List.filter (fun z => decide (z = i)) [n]) = [] := by
          simp only [List.filter_eq_nil_iff]
          intro a ha
          simp only [List.mem_singleton] at ha
          simp [ha]
          omega
        rw [this, List.append_nil]
      · have hin : i = n := by omega
        have h1 : (List.range n).filter (fun z => decide (z = i)) = [] := by
          simp only [List.filter_eq_nil_iff]
          intro a ha
          simp only [List.mem_range] at ha
          simp
          omega
        rw [h1, hin]
        simp

/-- C7 (claim theorem): `cosine_similarity` returns `0` whenever either input
vector has zero magnitude (the threshold comparison then behaves as comparing
`0 ≥ t`), so for every positive semantic threshold a word whose vector is all
zeros is never merged with any other word, whatever the spelling distance,
and it survives as the singleton cluster `(i, [i])`. -/
theorem zero_vector_never_merges (C : Config) (E : List (Word × Vec)) (i : ℕ)
    (hi : i < E.length) (hzero : ∀ x ∈ vecAt E i, x = (0 : ℚ))
    (ht : 0 < C.semantic_threshold) :
    (∀ (t : ℚ) (v : Vec),
      cosine_similarity_ge t (vecAt E i) v = decide ((0 : ℚ) ≥ t) ∧
      cosine_similarity_ge t v (vecAt E i) = decide ((0 : ℚ) ≥ t)) ∧
    (∀ j, (i, j) ∉ mergedPairs C E ∧ (j, i) ∉ mergedPairs C E) ∧
    (List.range E.length).filter
      (fun z => decide (find (parentFinal C E) z = find (parentFinal C E) i)) = [i] ∧
    (i, ([i] : List ℕ)) ∈ groupsList C E := by
  have hdz : dotProd (vecAt E i) (vecAt E i) = 0 := dotProd_self_of_zero _ hzero
  have hzero_cos : ∀ (t : ℚ) (v : Vec),
      cosine_similarity_ge t (vecAt E i) v = decide ((0 : ℚ) ≥ t) ∧
      cosine_similarity_ge t v (vecAt E i) = decide ((0 : ℚ) ≥ t) := by
    intro t v
    constructor
    · simp [cosine_similarity_ge, hdz]
    · simp [cosine_similarity_ge, hdz]
  have hnomerge : ∀ j, (i, j) ∉ mergedPairs C E ∧ (j, i) ∉ mergedPairs C E := by
    intro j
    constructor
    · intro habs
      have h := ((mem_mergedPairs C E i j).mp habs).2.2
      rw [(hzero_cos C.semantic_threshold (vecAt E j)).1] at h
      simp only [ge_iff_le, decide_eq_true_eq] at h
      linarith
    · intro habs
      have h := ((mem_mergedPairs C E j i).mp habs).2.2
      rw [(hzero_cos C.semantic_threshold (vecAt E j)).2] at h
      simp only [ge_iff_le, decide_eq_true_eq] at h
      linarith
  have hsing : ∀ z, z < E.length →
      (find (parentFinal C E) z = i ↔ z = i) := by
    rw [parentFinal_eq]
    refine foldUnions_singleton (mergedPairs C E) (List.range E.length) (WF_range _)
      (mergedPairs_bounds' C E) i hi ?_ ?_
    · intro z hz
      rw [find_range hz]
    · intro q hq
      constructor
      · intro habs
        have hq' : (i, q.2) ∈ mergedPairs C E := by
          rw [← habs]
          exact hq
        exact (hnomerge q.2).1 hq'
      · intro habs
        have hq' : (q.1, i) ∈ mergedPairs C E := by
          rw [← habs]
          exact hq
        exact (hnomerge q.1).2 hq'
  have hfi : find (parentFinal C E) i = i := (hsing i hi).mpr rfl
  have hfilter : (List.range E.length).filter
      (fun z => decide (find (parentFinal C E) z = find (parentFinal C E) i)) = [i] := by
    have hcongr : ∀ z ∈ List.range E.length,
        decide (find (parentFinal C E) z = find (parentFinal C E) i)
          = decide (z = i) := by
      intro z hz
      rw [hfi]
      exact decide_eq_decide.mpr (hsing z (by simpa using hz))
    rw [List.filter_congr hcongr]
    exact filter_range_eq_singleton hi
  refine ⟨hzero_cos, hnomerge, hfilter, ?_⟩
  unfold groupsList
  refine List.mem_map.mpr ⟨i, ?_, ?_⟩
  · have := root_mem_roots C E hi
    rwa [hfi] at this
  · rw [show ((List.range E.length).filter
        (fun z => decide (find (parentFinal C E) z = i))) = [i] from ?_]
    · have hcongr : ∀ z ∈ List.range E.length,
          decide (find (parentFinal C E) z = i) = decide (z = i) := by
        intro z hz
        exact decide_eq_decide.mpr (hsing z (by simpa using hz))
      rw [List.filter_congr hcongr]
      exact filter_range_eq_singleton hi

unseal Rat.mul Rat.inv Rat.add Rat.sub in
/-- Witness for `zero_vector_never_merges`: in `exampleZero` the zero-vector
word `cat` (id 0) survives as the singleton cluster `(0, [0])` although
`cot` is at edit distance 1. -/
theorem zero_vector_never_merges_witness :
    (0 : ℕ) < exampleZero.length ∧
    (∀ x ∈ vecAt exampleZero 0, x = (0 : ℚ)) ∧
    (0 : ℚ) < defaultConfig.semantic_threshold ∧
    ((0 : ℕ), ([0] : List ℕ)) ∈ groupsList defaultConfig exampleZero :=
  ⟨by decide, by decide, by decide,
    (zero_vector_never_merges defaultConfig exampleZero 0 (by decide) (by decide)
      (by decide)).2.2.2⟩

/-- Witness for `groups_partition`: id 1 of `exampleRun` lies in a group. -/
theorem groups_partition_witness :
    (1 : ℕ) < exampleRun.length ∧
    ∃ g ∈ groupsList defaultConfig exampleRun, (1 : ℕ) ∈ g.2 :=
  ⟨by decide, (groups_partition defaultConfig exampleRun).1 1 (by decide)⟩

/-- Witness for `canonical_min_and_original_vector` at `exampleRun`. -/
theorem canonical_min_witness :
    (words exampleRun).Nodup ∧
    ∀ g ∈ groupsList defaultConfig exampleRun,
      ∃ c : Word,
        ((g.2.map (fun i => wordAt exampleRun i)).mergeSort wordKeyLe).headD [] = c ∧
        c ∈ g.2.map (fun i => wordAt exampleRun i) ∧
        (∀ w ∈ g.2.map (fun i => wordAt exampleRun i),
          c.length < w.length ∨ (c.length = w.length ∧ ¬ List.Lex (· < ·) w c)) ∧
        (c, dictGet exampleRun c) ∈ exampleRun ∧
        (c, dictGet exampleRun c) ∈ deduplicate_by_similarity defaultConfig exampleRun :=
  ⟨by decide, canonical_min_and_original_vector defaultConfig exampleRun (by decide)⟩

/-! ## Idempotence of the pass -/

theorem wordAt_inj {E : List (Word × Vec)} (hnd : (words E).Nodup) {a b : ℕ}
    (ha : a < E.length) (hb : b < E.length) (h : wordAt E a = wordAt E b) : a = b := by
  have hla : a < (words E).length := by simpa [words] using ha
  have hlb : b < (words E).length := by simpa [words] using hb
  have h2 : wordAt E a = (words E)[a] := by
    unfold wordAt
    rw [List.getD_eq_getElem _ _ hla]
  have h3 : wordAt E b = (words E)[b] := by
    unfold wordAt
    rw [List.getD_eq_getElem _ _ hlb]
  have h1 : (words E)[a] = (words E)[b] := by rw [← h2, ← h3, h]
  exact (List.Nodup.getElem_inj_iff hnd).mp h1

theorem dedup_length (C : Config) (E : List (Word × Vec)) :
    (deduplicate_by_similarity C E).length
      = (firstDedup ((List.range E.length).map (find (parentFinal C E)))).length := by
  unfold deduplicate_by_similarity groupsList
  simp

/-- Each entry of the output is a canonical member of one cluster: its word
and vector are the word and vector of an input id `a` whose final root is the
`k`-th extracted root. -/
theorem out_entry (C : Config) (E : List (Word × Vec)) (hnd : (words E).Nodup)
    {k : ℕ} (hk : k < (deduplicate_by_similarity C E).length) :
    ∃ a, a < E.length ∧
      wordAt (deduplicate_by_similarity C E) k = wordAt E a ∧
      vecAt (deduplicate_by_similarity C E) k = vecAt E a ∧
      find (parentFinal C E) a
        = (firstDedup ((List.range E.length).map
            (find (parentFinal C E)))).getD k 0 := by
  have hkR : k < (firstDedup ((List.range E.length).map
      (find (parentFinal C E)))).length := by
    rw [← dedup_length C E]
    exact hk
  have hgetd : (firstDedup ((List.range E.length).map
        (find (parentFinal C E)))).getD k 0
      = (firstDedup ((List.range E.length).map (find (parentFinal C E))))[k] :=
    List.getD_eq_getElem _ _ hkR
  have hkG : k < (groupsList C E).length := by
    unfold groupsList
    simpa using hkR
  have hG : (groupsList C E)[k]
      = ((firstDedup ((List.range E.length).map (find (parentFinal C E))))[k],
         (List.range E.length).filter (fun i => decide (find (parentFinal C E) i
           = (firstDedup ((List.range E.length).map
               (find (parentFinal C E))))[k]))) := by
    unfold groupsList
    rw [List.getElem_map]
  have hr_mem : (firstDedup ((List.range E.length).map
      (find (parentFinal C E))))[k]
      ∈ firstDedup ((List.range E.length).map (find (parentFinal C E))) :=
    List.getElem_mem hkR
  obtain ⟨i0, hi0⟩ := fiber_nonempty C E hr_mem
  have hne : ((groupsList C E)[k]).2.map (fun i => wordAt E i) ≠ [] := by
    rw [hG]
    simp only [ne_eq, List.map_eq_nil_iff]
    intro habs
    rw [habs] at hi0
    simp at hi0
  obtain ⟨hcmem, -⟩ := mergeSort_head_min _ hne
  obtain ⟨a, hag, hwa⟩ := List.mem_map.mp hcmem
  have hafib := (mem_fiber C E _ a).mp (by rw [hG] at hag; exact hag)
  have hout : (deduplicate_by_similarity C E)[k]
      = (((((groupsList C E)[k]).2.map (fun i => wordAt E i)).mergeSort
            wordKeyLe).headD [],
         dictGet E (((((groupsList C E)[k]).2.map (fun i => wordAt E i)).mergeSort
            wordKeyLe).headD [])) := by
    unfold deduplicate_by_similarity
    rw [List.getElem_map]
  refine ⟨a, hafib.1, ?_, ?_, ?_⟩
  · rw [wordAt_lt hk, List.get_eq_getElem, hout, ← hwa]
  · rw [vecAt_lt hk, List.get_eq_getElem, hout, ← hwa]
    exact dictGet_at hnd hafib.1
  · rw [hgetd]
    exact hafib.2

theorem words_out_nodup (C : Config) (E : List (Word × Vec))
    (hnd : (words E).Nodup) : (words (deduplicate_by_similarity C E)).Nodup := by
  rw [List.nodup_iff_injective_get]
  rintro ⟨k, hk⟩ ⟨k', hk'⟩ hkk
  have hlen : (words (deduplicate_by_similarity C E)).length
      = (deduplicate_by_similarity C E).length := by simp [words]
  have hk2 : k < (deduplicate_by_similarity C E).length := by omega
  have hk2' : k' < (deduplicate_by_similarity C E).length := by omega
  obtain ⟨a, ha, hwa, -, hra⟩ := out_entry C E hnd hk2
  obtain ⟨b, hb, hwb, -, hrb⟩ := out_entry C E hnd hk2'
  have hw : wordAt (deduplicate_by_similarity C E) k
      = wordAt (deduplicate_by_similarity C E) k' := by
    have e1 : wordAt (deduplicate_by_similarity C E) k
        = (words (deduplicate_by_similarity C E)).get ⟨k, by omega⟩ := by
      unfold wordAt
      rw [List.getD_eq_getElem _ _ (by omega)]
      rfl
    have e2 : wordAt (deduplicate_by_similarity C E) k'
        = (words (deduplicate_by_similarity C E)).get ⟨k', by omega⟩ := by
      unfold wordAt
      rw [List.getD_eq_getElem _ _ (by omega)]
      rfl
    rw [e1, e2, hkk]
  have hab : a = b := wordAt_inj hnd ha hb (by rw [← hwa, ← hwb, hw])
  have hkRa : k < (firstDedup ((List.range E.length).map
      (find (parentFinal C E)))).length := by
    rw [← dedup_length C E]; exact hk2
  have hkRb : k' < (firstDedup ((List.range E.length).map
      (find (parentFinal C E)))).length := by
    rw [← dedup_length C E]; exact hk2'
  have hRkk : (firstDedup ((List.range E.length).map (find (parentFinal C E))))[k]
      = (firstDedup ((List.range E.length).map (find (parentFinal C E))))[k'] := by
    rw [← List.getD_eq_getElem _ 0 hkRa, ← List.getD_eq_getElem _ 0 hkRb,
      ← hra, ← hrb, hab]
  have := (List.Nodup.getElem_inj_iff (nodup_firstDedup _)).mp hRkk
  exact Fin.ext this

/-- Running the pass on its own output issues no further merges: any pair of
canonical words passing every filter and test in the second run would have
passed them in the first run (all tests are symmetric functions of the two
words and vectors, which are preserved verbatim), so the two ids would already
share one cluster — contradicting that they are canonicals of distinct
clusters. -/
theorem mergedPairs_out_nil (C : Config) (E : List (Word × Vec))
    (hnd : (words E).Nodup) :
    mergedPairs C (deduplicate_by_similarity C E) = [] := by
  by_contra hne
  obtain ⟨⟨i, j⟩, hmem⟩ := List.exists_mem_of_ne_nil _ hne
  obtain ⟨hreach, hedit, hcos⟩ :=
    (mem_mergedPairs C (deduplicate_by_similarity C E) i j).mp hmem
  unfold reachesSimilarityTest at hreach
  simp only [Bool.and_eq_true, decide_eq_true_eq] at hreach
  obtain ⟨⟨⟨hij, hjlen⟩, hshare⟩, hpre⟩ := hreach
  have hilen : i < (deduplicate_by_similarity C E).length := by omega
  obtain ⟨a, ha, hwa, hva, hra⟩ := out_entry C E hnd hilen
  obtain ⟨b, hb, hwb, hvb, hrb⟩ := out_entry C E hnd hjlen
  have hiR : i < (firstDedup ((List.range E.length).map
      (find (parentFinal C E)))).length := by
    rw [← dedup_length C E]; exact hilen
  have hjR : j < (firstDedup ((List.range E.length).map
      (find (parentFinal C E)))).length := by
    rw [← dedup_length C E]; exact hjlen
  have hfne : find (parentFinal C E) a ≠ find (parentFinal C E) b := by
    rw [hra, hrb, List.getD_eq_getElem _ 0 hiR, List.getD_eq_getElem _ 0 hjR]
    intro habs
    have := (List.Nodup.getElem_inj_iff (nodup_firstDedup _)).mp habs
    omega
  have hsh : sharesBigram E a b = true := by
    unfold sharesBigram at hshare ⊢
    rw [← hwa, ← hwb]
    exact hshare
  have hpre2 : passesPrefilters C (wordAt E a) (wordAt E b) = true := by
    rw [← hwa, ← hwb]
    exact hpre
  have hedit2 : edit_distance (wordAt E a) (wordAt E b) ≤ C.spelling_threshold := by
    rw [← hwa, ← hwb]
    exact hedit
  have hcos2 : cosine_similarity_ge C.semantic_threshold (vecAt E a) (vecAt E b)
      = true := by
    rw [← hva, ← hvb]
    exact hcos
  have hconn : find (parentFinal C E) a = find (parentFinal C E) b := by
    have hab : a ≠ b := fun habs => hfne (by rw [habs])
    rcases Nat.lt_or_ge a b with hlt | hge
    · refine merged_connected C E ((mem_mergedPairs C E a b).mpr ⟨?_, hedit2, hcos2⟩)
      unfold reachesSimilarityTest
      simp only [Bool.and_eq_true, decide_eq_true_eq]
      exact ⟨⟨⟨hlt, hb⟩, hsh⟩, hpre2⟩
    · have hlt : b < a := by omega
      have hconn' : find (parentFinal C E) b = find (parentFinal C E) a := by
        refine merged_connected C E ((mem_mergedPairs C E b a).mpr ⟨?_, ?_, ?_⟩)
        · unfold reachesSimilarityTest
          simp only [Bool.and_eq_true, decide_eq_true_eq]
          refine ⟨⟨⟨hlt, ha⟩, ?_⟩, ?_⟩
          · rw [sharesBigram_symm]
            exact hsh
          · rw [passesPrefilters_symm]
            exact hpre2
        · rw [edit_distance_symm]
          exact hedit2
        · rw [cosine_similarity_ge_symm]
          exact hcos2
      exact hconn'.symm
  exact hfne hconn

theorem mergeSort_singleton (a : Word) : [a].mergeSort wordKeyLe = [a] :=
  List.perm_singleton.mp (List.mergeSort_perm [a] wordKeyLe)

/-- C5 (claim theorem): running `deduplicate_by_similarity` a second time with
the same thresholds on its own output performs no merges at all and returns
the collection unchanged. -/
theorem dedup_idempotent (C : Config) (E : List (Word × Vec))
    (hnd : (words E).Nodup) :
    mergedPairs C (deduplicate_by_similarity C E) = [] ∧
    deduplicate_by_similarity C (deduplicate_by_similarity C E)
      = deduplicate_by_similarity C E := by
  have hnil := mergedPairs_out_nil C E hnd
  refine ⟨hnil, ?_⟩
  have hndout := words_out_nodup C E hnd
  set out := deduplicate_by_similarity C E with hout
  have hpar : parentFinal C out = List.range out.length := by
    unfold parentFinal
    rw [hnil]
    rfl
  have hfind : ∀ z, z < out.length → find (parentFinal C out) z = z := by
    intro z hz
    rw [hpar]
    exact find_range hz
  have hmapf : (List.range out.length).map (find (parentFinal C out))
      = List.range out.length := by
    have hcg : ∀ z ∈ List.range out.length, find (parentFinal C out) z = id z := by
      intro z hz
      rw [hfind z (by simpa using hz)]
      rfl
    rw [List.map_congr_left hcg, List.map_id]
  have hgroups : groupsList C out = (List.range out.length).map (fun r => (r, [r])) := by
    unfold groupsList
    rw [hmapf, firstDedup_of_nodup (List.nodup_range _)]
    refine List.map_congr_left ?_
    intro r hr
    have hrn : r < out.length := by simpa using hr
    have hcongr : ∀ z ∈ List.range out.length,
        decide (find (parentFinal C out) z = r) = decide (z = r) := by
      intro z hz
      exact decide_eq_decide.mpr (by rw [hfind z (by simpa using hz)])
    rw [List.filter_congr hcongr, filter_range_eq_singleton hrn]
  rw [show deduplicate_by_similarity C out
      = (groupsList C out).map (fun g =>
          (((g.2.map (fun i => wordAt out i)).mergeSort wordKeyLe).headD [],
            dictGet out (((g.2.map (fun i => wordAt out i)).mergeSort
              wordKeyLe).headD []))) from rfl]
  rw [hgroups, List.map_map]
  refine List.ext_getElem (by simp) ?_
  intro k hk1 hk2
  have hkn : k < out.length := by simpa using hk1
  rw [List.getElem_map, List.getElem_range]
  simp only [Function.comp, List.map_cons, List.map_nil]
  rw [mergeSort_singleton]
  simp only [List.headD_cons]
  rw [dictGet_at hndout hkn, wordAt_lt hkn, vecAt_lt hkn]
  simp [List.get_eq_getElem]

unseal Rat.mul Rat.inv Rat.add Rat.sub List.merge List.mergeSort in
/-- Witness for `dedup_idempotent`: on `exampleRun` (where the first pass does
merge `cat`/`cot`), the second pass changes nothing. -/
theorem dedup_idempotent_witness :
    (words exampleRun).Nodup ∧
    mergedPairs defaultConfig (deduplicate_by_similarity defaultConfig exampleRun) = [] ∧
    deduplicate_by_similarity defaultConfig
        (deduplicate_by_similarity defaultConfig exampleRun)
      = deduplicate_by_similarity defaultConfig exampleRun :=
  ⟨by decide, (dedup_idempotent defaultConfig exampleRun (by decide)).1,
    (dedup_idempotent defaultConfig exampleRun (by decide)).2⟩

end WordDedup
